import Mathlib

/-! Verification development for the rotki DeFi store
(`src/frontend/app/src/store/defi/index.ts`): a shallow embedding of the
aggregation and orchestration engine (`defiAccounts`, `overview`,
`fetchDefiBalances`, `fetchAllDefi`) and proofs about it.

Monetary values (`BigNumber` arbitrary-precision decimals) are embedded as
rationals, address-indexed objects as insertion-ordered association lists,
and the asynchronous fetch functions as explicit state transformers whose
awaited task outcome and schema validation enter as parameters. -/

namespace Rotki

/-! ## List helpers shared by the embedding -/

/-- Keep an element when it has not been seen before: `dedupFirst` below is the
semantics of `filter(uniqueStrings)`, where `uniqueStrings` is
`(value, index, array) => array.indexOf(value) === index`. -/
def dedupFirstAux (seen : List String) : List String → List String
  | [] => []
  | x :: xs => if x ∈ seen then dedupFirstAux seen xs else x :: dedupFirstAux (x :: seen) xs

/-- Keep the first occurrence of every string and drop later duplicates. -/
def dedupFirst (l : List String) : List String := dedupFirstAux [] l

/-- Code-unit comparison of characters, as JavaScript string comparison does. -/
def charListLeB : List Char → List Char → Bool
  | [], _ => true
  | _ :: _, [] => false
  | a :: as, b :: bs =>
    if a.val < b.val then true
    else if b.val < a.val then false
    else charListLeB as bs

/-- Lexicographic string order used by lodash `sortBy` on string keys. -/
def strLeB (a b : String) : Bool := charListLeB a.data b.data

/-- Insert before the first element that is not strictly smaller, so that an
element coming from earlier in the input stays in front of equal keys. -/
def insertSorted (le : α → α → Bool) (x : α) : List α → List α
  | [] => [x]
  | y :: ys => if le x y then x :: y :: ys else y :: insertSorted le x ys

/-- Stable ascending sort: the behaviour of lodash `sortBy` under a fixed
iteratee (equal keys keep their relative input order). -/
def insertionSortB (le : α → α → Bool) : List α → List α
  | [] => []
  | x :: xs => insertSorted le x (insertionSortB le xs)

/-! ## Protocol identifiers and loading status -/

/-- The `DefiProtocol` enum of `@rotki/common/lib/blockchain`; its string
values (`DefiProtocol.key`) are the lowercase identifiers used in URLs and as
record keys. -/
inductive DefiProtocol
  | yearn_vaults
  | yearn_vaults_v2
  | aave
  | makerdao_dsr
  | makerdao_vaults
  | compound
  | uniswap
  | liquity
deriving DecidableEq

/-- The string value of a `DefiProtocol` enum member. -/
def DefiProtocol.key : DefiProtocol → String
  | .yearn_vaults => "yearn_vaults"
  | .yearn_vaults_v2 => "yearn_vaults_v2"
  | .aave => "aave"
  | .makerdao_dsr => "makerdao_dsr"
  | .makerdao_vaults => "makerdao_vaults"
  | .compound => "compound"
  | .uniswap => "uniswap"
  | .liquity => "liquity"

/-- The `Status` enum of `@/types/status`. -/
inductive Status
  | not_loaded
  | loading
  | refreshing
  | partially_loaded
  | loaded
deriving DecidableEq

/-- The sections of `@/types/status` that the DeFi store reads or writes. -/
inductive Section
  | defi_overview
  | defi_balances
  | defi_aave_balances
  | defi_compound_balances
  | defi_yearn_vaults_balances
  | defi_yearn_vaults_v2_balances
  | defi_liquity_balances
  | defi_lending_history
deriving DecidableEq

/-! ## The `defiAccounts` address deriver -/

/-- A protocol's history state as `getProtocolAddresses` consumes it: either a
plain list of addresses (`string[]`) or an address-indexed mapping, of which
only the keys are used (`Object.keys(history)`). -/
inductive HistoryInput
  | ofArray (addresses : List String)
  | ofMapping (keys : List String)
deriving DecidableEq

/-- Normalize a history input to its address list
(`Array.isArray(history) ? history : Object.keys(history)`). -/
def HistoryInput.norm : HistoryInput → List String
  | .ofArray l => l
  | .ofMapping ks => ks

/-- The adapter balance/history state read by `defiAccounts`: for each visited
protocol, the addresses appearing as balance keys (`Object.keys(balances)`;
for MakerDAO DSR the keys of `dsrBalances.balances`) and the history input
(for Compound, `events.map(({ address }) => address)` is already an array). -/
structure DefiAccountsState where
  aaveBalances : List String
  aaveHistory : HistoryInput
  compoundBalances : List String
  compoundEvents : List String
  yearnV1Balances : List String
  yearnV1History : HistoryInput
  yearnV2Balances : List String
  yearnV2History : HistoryInput
  dsrBalances : List String
  dsrHistory : HistoryInput
deriving DecidableEq

/-- `getProtocolAddresses` inside `defiAccounts`: when the protocol filter is
empty or contains the protocol, the balance keys followed by the history
addresses with only first occurrences kept; otherwise no addresses. -/
def getProtocolAddresses (fltr : List DefiProtocol) (protocol : DefiProtocol)
    (balances : List String) (history : HistoryInput) : List String :=
  if fltr = [] ∨ protocol ∈ fltr then dedupFirst (balances ++ history.norm) else []

/-- The per-protocol address list held in the `addresses` accumulator object
(protocols `defiAccounts` never visits contribute no addresses). -/
def protocolAddrList (st : DefiAccountsState) (fltr : List DefiProtocol) :
    DefiProtocol → List String
  | .aave => getProtocolAddresses fltr .aave st.aaveBalances st.aaveHistory
  | .compound => getProtocolAddresses fltr .compound st.compoundBalances
      (.ofArray st.compoundEvents)
  | .yearn_vaults => getProtocolAddresses fltr .yearn_vaults st.yearnV1Balances
      st.yearnV1History
  | .yearn_vaults_v2 => getProtocolAddresses fltr .yearn_vaults_v2 st.yearnV2Balances
      st.yearnV2History
  | .makerdao_dsr => getProtocolAddresses fltr .makerdao_dsr st.dsrBalances st.dsrHistory
  | _ => []

/-- The key insertion order of the `addresses` object literal (lines 100-106),
which is the order `for (const protocol in addresses)` visits its non-numeric
string keys: MakerDAO DSR first. -/
def protocolIterationOrder : List DefiProtocol :=
  [.makerdao_dsr, .aave, .compound, .yearn_vaults, .yearn_vaults_v2]

/-- `Blockchain.ETH` of `@rotki/common` (the single supported chain); only its
identity matters here. -/
def ethChain : String := "eth"

/-- The `DefiAccount` records returned by `defiAccounts`. -/
structure DefiAccount where
  address : String
  chain : String
  protocols : List DefiProtocol
deriving DecidableEq

/-- One iteration of the inner accumulation loop: when `accounts[address]`
exists, push the protocol onto its list in place; otherwise create a new
account, which appends the key in object insertion order. -/
def pushAccount : List (String × DefiAccount) → DefiProtocol → String →
    List (String × DefiAccount)
  | [], p, addr => [(addr, ⟨addr, ethChain, [p]⟩)]
  | kv :: rest, p, addr =>
    if kv.1 = addr then
      (kv.1, { kv.2 with protocols := kv.2.protocols ++ [p] }) :: rest
    else kv :: pushAccount rest p addr

/-- The nested accumulation loops flattened: protocols in object key order,
then each protocol's addresses in order. -/
def accountPairs (st : DefiAccountsState) (fltr : List DefiProtocol) :
    List (DefiProtocol × String) :=
  protocolIterationOrder.flatMap
    (fun p => (protocolAddrList st fltr p).map (fun a => (p, a)))

/-- Fold of the accumulation loop over the flattened protocol/address pairs. -/
def buildAccounts (ps : List (DefiProtocol × String)) : List (String × DefiAccount) :=
  ps.foldl (fun m q => pushAccount m q.1 q.2) []

/-- `defiAccounts` (index.ts lines 73-161): `Object.values` of the accumulated
`accounts` record, in key insertion order. -/
def defiAccounts (st : DefiAccountsState) (fltr : List DefiProtocol) : List DefiAccount :=
  (buildAccounts (accountPairs st fltr)).map Prod.snd

/-! ## The overview data model -/

/-- Arbitrary-precision decimal amounts (`BigNumber`), embedded as exact
integer fractions (every decimal is one). The representation is not reduced:
the engine only ever adds amounts and compares them, and both are implemented
below as the exact rational operations (no rounding), so normalization is
never needed and every computation stays kernel-executable. `Money.toRat`
relates the representation to Mathlib's rationals. The `Zero` constant of
`@/utils/bignumbers` is `0`, i.e. the fraction 0/1. -/
structure Money where
  num : Int
  den : Nat := 1
deriving DecidableEq

instance : OfNat Money n := ⟨⟨(n : Int), 1⟩⟩

/-- Exact addition of fractions: `BigNumber.plus`. -/
def Money.add (a b : Money) : Money :=
  ⟨a.num * (b.den : Int) + b.num * (a.den : Int), a.den * b.den⟩

instance : Add Money := ⟨Money.add⟩

/-- Exact comparison of fractions: `BigNumber.gt` and friends. -/
instance : LT Money := ⟨fun a b => a.num * (b.den : Int) < b.num * (a.den : Int)⟩

instance (a b : Money) : Decidable (a < b) :=
  inferInstanceAs (Decidable (a.num * (b.den : Int) < b.num * (a.den : Int)))

/-- The rational value of an amount. -/
def Money.toRat (a : Money) : Rat := (a.num : Rat) / (a.den : Rat)

/-- An amount together with its USD value. -/
structure Balance where
  amount : Money
  usdValue : Money
deriving DecidableEq

/-- A `baseBalance` entry: token identity plus balance. -/
structure DefiAsset where
  tokenAddress : String
  tokenName : String
  tokenSymbol : String
  balance : Balance
deriving DecidableEq

/-- The `balanceType` discriminator of a protocol balance entry. -/
inductive BalanceType
  | asset
  | liability
deriving DecidableEq

/-- The `protocol` field of a balance entry: backend-supplied name and icon. -/
structure ProtocolInfo where
  name : String
  icon : String
deriving DecidableEq

/-- One raw per-address, per-protocol balance entry of the overview payload. -/
structure ProtocolBalanceEntry where
  protocol : ProtocolInfo
  baseBalance : DefiAsset
  balanceType : BalanceType
deriving DecidableEq

/-- `AllDefiProtocols`: address mapped to its list of balance entries, as an
insertion-ordered association list (`Object.keys` order). -/
abbrev AllDefiProtocols := List (String × List ProtocolBalanceEntry)

/-- The `tokenInfo` display pair of a summary. -/
structure TokenInfo where
  tokenName : String
  tokenSymbol : String
deriving DecidableEq

/-- `DefiProtocolSummary` of `@/types/defi/overview`. Optional fields are
`undefined` when absent, in particular `balanceUsd` starts unset. -/
structure DefiProtocolSummary where
  protocol : ProtocolInfo
  tokenInfo : Option TokenInfo
  assets : List DefiAsset
  deposits : Bool
  liabilities : Bool
  depositsUrl : Option String := none
  liabilitiesUrl : Option String := none
  totalCollateralUsd : Money
  totalDebtUsd : Money
  totalLendingDepositUsd : Money
  balanceUsd : Option Money := none
deriving DecidableEq

/-- Display-name constants of `@/types/defi/protocols` (`OverviewDefiProtocol`
values coming from the backend); pairwise distinct display names, distinct
from the lowercase `DefiProtocol` identifier strings. -/
def AAVE : String := "Aave"

/-- Display name of the Compound protocol. -/
def COMPOUND : String := "Compound"

/-- Display name of the yearn.finance vaults protocol. -/
def YEARN_FINANCE_VAULTS : String := "yearn.finance Vaults"

/-- Display name of the yearn.finance vaults v2 protocol. -/
def YEARN_FINANCE_VAULTS_V2 : String := "yearn.finance Vaults v2"

/-- Display name of the Liquity protocol. -/
def LIQUITY : String := "Liquity"

/-- Display name of the MakerDAO DSR protocol. -/
def MAKERDAO_DSR : String := "MakerDAO DSR"

/-- Display name of the MakerDAO vaults protocol. -/
def MAKERDAO_VAULTS : String := "MakerDAO Vaults"

/-- `getProtocolIcon` of `@/types/defi/protocols`: icon asset looked up from
the display name; its exact value never matters to the claims. -/
def getProtocolIcon (name : String) : String := name ++ ".svg"

/-- A `loanSummary(filter)` result of the lending collaborator. -/
structure LoanSummary where
  totalCollateralUsd : Money
  totalDebt : Money

/-- The external collaborators `overview` reads: per-section statuses
(`getStatus`), the lending aggregation (`loanSummary` and
`totalLendingDeposit`, both always called with a single-protocol filter),
and the localized `defi_overview.multiple_assets` label (i18n `t`). -/
structure OverviewEnv where
  status : Section → Status
  loanSummary : DefiProtocol → LoanSummary
  totalLendingDeposit : DefiProtocol → Money
  multipleAssetsLabel : String

/-! ## The overview computation -/

/-- `shouldDisplay`: nonzero lending deposit, debt, spot balance or collateral.
`summary.balanceUsd && summary.balanceUsd.gt(0)` is falsy exactly when
`balanceUsd` is unset or not greater than zero. -/
def shouldDisplay (summary : DefiProtocolSummary) : Bool :=
  let lending := decide (0 < summary.totalLendingDepositUsd)
  let debt := decide (0 < summary.totalDebtUsd)
  let balance := match summary.balanceUsd with
    | some b => decide (0 < b)
    | none => false
  let collateral := decide (0 < summary.totalCollateralUsd)
  lending || debt || balance || collateral

/-- `protocolSummary`: `undefined` unless the governing section status is
LOADED or REFRESHING; otherwise a summary whose lending totals are zeroed by
the `noLiabilities` / `noDeposits` flags instead of queried. -/
def protocolSummary (env : OverviewEnv) (protocol : DefiProtocol) (sec : Section)
    (name : String) (noLiabilities : Bool) (noDeposits : Bool) :
    Option DefiProtocolSummary :=
  if env.status sec ≠ Status.loaded ∧ env.status sec ≠ Status.refreshing then none
  else
    some
      { protocol := ⟨name, getProtocolIcon name⟩
        liabilities := !noLiabilities
        deposits := !noDeposits
        tokenInfo := none
        assets := []
        liabilitiesUrl :=
          if noLiabilities then none
          else some ("/defi/liabilities?protocol=" ++ protocol.key)
        depositsUrl :=
          if noDeposits then none
          else some ("/defi/deposits?protocol=" ++ protocol.key)
        totalCollateralUsd :=
          (if noLiabilities then (⟨0, 0⟩ : LoanSummary)
           else env.loanSummary protocol).totalCollateralUsd
        totalDebtUsd :=
          (if noLiabilities then (⟨0, 0⟩ : LoanSummary)
           else env.loanSummary protocol).totalDebt
        totalLendingDepositUsd :=
          if noDeposits then 0 else env.totalLendingDeposit protocol }

/-- The `summary` record accumulated by `overview`, as an insertion-ordered
association list from record key to summary. -/
abbrev SummaryMap := List (String × DefiProtocolSummary)

/-- Read `summary[key]`. -/
def findSummary : SummaryMap → String → Option DefiProtocolSummary
  | [], _ => none
  | kv :: rest, k => if kv.1 = k then some kv.2 else findSummary rest k

/-- Write `summary[key] = value`: overwrite in place when the key exists, else
append in insertion order. -/
def setSummary : SummaryMap → String → DefiProtocolSummary → SummaryMap
  | [], k, v => [(k, v)]
  | kv :: rest, k, v => if kv.1 = k then (k, v) :: rest else kv :: setSummary rest k v

/-- The summary created on the first entry of a generic protocol: token info
seeded from the entry, flags down, totals zero, `balanceUsd` unset. -/
def seedSummary (e : ProtocolBalanceEntry) : DefiProtocolSummary :=
  { protocol := ⟨e.protocol.name, getProtocolIcon e.protocol.name⟩
    tokenInfo := some ⟨e.baseBalance.tokenName, e.baseBalance.tokenSymbol⟩
    assets := []
    deposits := false
    liabilities := false
    totalCollateralUsd := 0
    totalDebtUsd := 0
    totalLendingDepositUsd := 0 }

/-- The `else if` branch on an existing generic summary: when the stored token
name differs from the entry's, collapse the display to the localized
"multiple assets" label with empty symbol. -/
def collapseTokenInfo (label : String) (s : DefiProtocolSummary)
    (e : ProtocolBalanceEntry) : DefiProtocolSummary :=
  if s.tokenInfo.map TokenInfo.tokenName ≠ some e.baseBalance.tokenName then
    { s with tokenInfo := some ⟨label, ""⟩ }
  else s

/-- Merge a base balance into the asset list by token address: the first slot
with the same `tokenAddress` receives the sums of amount and USD value in
place (`findIndex` / in-place update); otherwise append a new slot. -/
def mergeAssets : List DefiAsset → DefiAsset → List DefiAsset
  | [], base => [base]
  | a :: rest, base =>
    if a.tokenAddress = base.tokenAddress then
      { a with
        balance :=
          ⟨base.balance.amount + a.balance.amount,
           base.balance.usdValue + a.balance.usdValue⟩ } :: rest
    else a :: mergeAssets rest base

/-- The balance accumulation applied after seeding or collapsing: only `Asset`
entries add their USD value to the running `balanceUsd` (unset counts as
`Zero`) and merge into the asset list. -/
def assetStep (s : DefiProtocolSummary) (e : ProtocolBalanceEntry) :
    DefiProtocolSummary :=
  if e.balanceType = BalanceType.asset then
    { s with
      balanceUsd := some (s.balanceUsd.getD 0 + e.baseBalance.balance.usdValue)
      assets := mergeAssets s.assets e.baseBalance }
  else s

/-- The transformation an entry applies to an existing generic summary. -/
def genericUpdate (label : String) (s : DefiProtocolSummary)
    (e : ProtocolBalanceEntry) : DefiProtocolSummary :=
  assetStep (collapseTokenInfo label s e) e

/-- The generic accumulation path for one entry. -/
def genericStep (label : String) (m : SummaryMap) (e : ProtocolBalanceEntry) :
    SummaryMap :=
  match findSummary m e.protocol.name with
  | none => setSummary m e.protocol.name (assetStep (seedSummary e) e)
  | some s => setSummary m e.protocol.name (genericUpdate label s e)

/-- The shared shape of every special-summary assignment in `overview`: when
the summary is defined (status allows it) and `shouldDisplay` holds, write it
at its key, else leave the record alone. -/
def specialWrite (m : SummaryMap) (k : String) (o : Option DefiProtocolSummary) :
    SummaryMap :=
  match o with
  | some s => if shouldDisplay s then setSummary m k s else m
  | none => m

/-- The loop body of `overview` for one entry: the four specially handled
display names write their dedicated summary (when defined and displayable)
and skip generic accumulation (`continue`); all other names accumulate
generically. -/
def entryStep (env : OverviewEnv) (m : SummaryMap) (e : ProtocolBalanceEntry) :
    SummaryMap :=
  let protocol := e.protocol.name
  if protocol = AAVE then
    specialWrite m protocol
      (protocolSummary env .aave .defi_aave_balances protocol false false)
  else if protocol = COMPOUND then
    specialWrite m protocol
      (protocolSummary env .compound .defi_compound_balances protocol false false)
  else if protocol = YEARN_FINANCE_VAULTS then
    specialWrite m protocol
      (protocolSummary env .yearn_vaults .defi_yearn_vaults_balances protocol true false)
  else if protocol = LIQUITY then
    specialWrite m protocol
      (protocolSummary env .liquity .defi_liquity_balances protocol false true)
  else genericStep env.multipleAssetsLabel m e

/-- The MakerDAO DSR summary assembled after the entry loop; keyed by the
`DefiProtocol.MAKERDAO_DSR` identifier, displayed under the `MAKERDAO_DSR`
display name. -/
def makerDAODSRSummary (env : OverviewEnv) : DefiProtocolSummary :=
  { protocol := ⟨MAKERDAO_DSR, getProtocolIcon MAKERDAO_DSR⟩
    tokenInfo := none
    assets := []
    depositsUrl := some "/defi/deposits?protocol=makerdao"
    deposits := true
    liabilities := false
    totalCollateralUsd := 0
    totalDebtUsd := 0
    totalLendingDepositUsd := env.totalLendingDeposit .makerdao_dsr }

/-- The MakerDAO vaults summary assembled after the entry loop. -/
def makerDAOVaultSummary (env : OverviewEnv) : DefiProtocolSummary :=
  { protocol := ⟨MAKERDAO_VAULTS, getProtocolIcon MAKERDAO_VAULTS⟩
    tokenInfo := none
    assets := []
    deposits := false
    liabilities := true
    liabilitiesUrl := some "/defi/liabilities?protocol=makerdao"
    totalDebtUsd := (env.loanSummary .makerdao_vaults).totalDebt
    totalCollateralUsd := (env.loanSummary .makerdao_vaults).totalCollateralUsd
    totalLendingDepositUsd := 0 }

/-- The block guarded by the overview status after the entry loop: MakerDAO
DSR, MakerDAO vaults and Yearn vaults V2 summaries written under their
`DefiProtocol` identifier keys. -/
def applySpecialSummaries (env : OverviewEnv) (m : SummaryMap) : SummaryMap :=
  if env.status .defi_overview = Status.loaded ∨
      env.status .defi_overview = Status.refreshing then
    specialWrite
      (specialWrite
        (specialWrite m DefiProtocol.makerdao_dsr.key (some (makerDAODSRSummary env)))
        DefiProtocol.makerdao_vaults.key (some (makerDAOVaultSummary env)))
      DefiProtocol.yearn_vaults_v2.key
      (protocolSummary env .yearn_vaults_v2 .defi_yearn_vaults_v2_balances
        YEARN_FINANCE_VAULTS_V2 true false)
  else m

/-- The fully accumulated `summary` record: entry loop over all addresses'
entries in key order, then the post-loop special summaries. -/
def summaryMap (env : OverviewEnv) (allProtocols : AllDefiProtocols) : SummaryMap :=
  applySpecialSummaries env
    ((allProtocols.flatMap Prod.snd).foldl (entryStep env) [])

/-- The final filter of `overview`: `value.balanceUsd` is a BigNumber object,
truthy whenever set (also at zero); `deposits` and `liabilities` are booleans. -/
def overviewKeep (s : DefiProtocolSummary) : Bool :=
  s.balanceUsd.isSome || s.deposits || s.liabilities

/-- `overview` (index.ts lines 167-395): `Object.values` of the summary
record, stably sorted by `protocol.name` (lodash `sortBy`), then filtered by
`overviewKeep`. -/
def overview (env : OverviewEnv) (allProtocols : AllDefiProtocols) :
    List DefiProtocolSummary :=
  (insertionSortB (fun a b => strLeB a.protocol.name b.protocol.name)
      ((summaryMap env allProtocols).map Prod.snd)).filter overviewKeep

/-! ## The fetch orchestrator -/

/-- A notification pushed through `useNotificationsStore().notify`. -/
structure Notification where
  title : String
  message : String
  display : Bool
deriving DecidableEq

/-- Modelled from the spec: the i18n texts `actions.defi.balances.error.title`
and `actions.defi.balances.error.description` (with the error message
interpolated) are external; only that the description carries the error
message matters. -/
def defiBalancesErrorTitle : String := "DeFi balances query failed"

/-- The interpolated error description shown to the user. -/
def defiBalancesErrorDescription (error : String) : String :=
  "Failed to query DeFi balances: " ++ error

/-- The notification built in the catch block of `fetchDefiBalances`. -/
def defiBalancesErrorNotification (error : String) : Notification :=
  ⟨defiBalancesErrorTitle, defiBalancesErrorDescription error, true⟩

/-- The raw task result before schema validation; opaque to the engine. -/
abbrev RawPayload := String

/-- The store state touched by `fetchDefiBalances` / `fetchAllDefi`, plus an
instrumentation counter of overview-fetch job submissions
(`fetchAllDefiCaller` calls). -/
structure DefiState where
  allProtocols : AllDefiProtocols
  statuses : Section → Status
  notifications : List Notification
  submissions : Nat

/-- `setStatus` of `useStatusUpdater`: update one section's status. -/
def setStatus (st : DefiState) (s : Status) (sec : Section) : DefiState :=
  { st with statuses := fun x => if x = sec then s else st.statuses x }

/-- Modelled from the spec: `useStatusUpdater`'s `fetchDisabled(refresh,
section)` guard is not under src; per the spec it suppresses a fetch when one
for the requested section is already in flight and `refresh` is false. -/
def statusInFlight : Status → Bool
  | .loading => true
  | .refreshing => true
  | .partially_loaded => true
  | _ => false

/-- The step-1 guard of the orchestrator. -/
def fetchDisabled (st : DefiState) (refresh : Bool) (sec : Section) : Bool :=
  statusInFlight (st.statuses sec) && !refresh

/-- `fetchDefiBalances` (index.ts lines 397-429). The settled task outcome
(`Except.error` = submission or await rejection) and the
`AllDefiProtocols.parse` zod schema validation (its schema lives outside src)
enter as parameters; the returned `Except` is the promise outcome of the call
itself. Everything inside the `try` block that throws is caught and converted
to a notification; the section status is set to LOADED either way. -/
def fetchDefiBalances (st : DefiState) (refresh : Bool)
    (taskResult : Except String RawPayload)
    (parse : RawPayload → Except String AllDefiProtocols) :
    DefiState × Except String Unit :=
  if fetchDisabled st refresh .defi_balances then (st, .ok ())
  else
    let st1 := setStatus st .loading .defi_balances
    let st2 := { st1 with submissions := st1.submissions + 1 }
    let st3 :=
      match taskResult with
      | .error e =>
        { st2 with
          notifications := st2.notifications ++ [defiBalancesErrorNotification e] }
      | .ok raw =>
        match parse raw with
        | .error e =>
          { st2 with
            notifications := st2.notifications ++ [defiBalancesErrorNotification e] }
        | .ok payload => { st2 with allProtocols := payload }
    (setStatus st3 .loaded .defi_balances, .ok ())

/-- `fetchAllDefi` (index.ts lines 431-458). The settle-all fan-out to the
protocol adapters is external and enters as a state transformer. -/
def fetchAllDefi (st : DefiState) (refresh : Bool)
    (taskResult : Except String RawPayload)
    (parse : RawPayload → Except String AllDefiProtocols)
    (adapterFetches : DefiState → DefiState) :
    DefiState × Except String Unit :=
  if fetchDisabled st refresh .defi_overview then (st, .ok ())
  else
    let newStatus := if refresh then Status.refreshing else Status.loading
    let st1 := setStatus st newStatus .defi_overview
    let st2 := (fetchDefiBalances st1 refresh taskResult parse).1
    let st3 := setStatus st2 .partially_loaded .defi_overview
    let st4 := adapterFetches st3
    (setStatus st4 .loaded .defi_overview, .ok ())

/-- The first failure an orchestration run hits before `allProtocols` could be
replaced: the task rejection, or else the schema validation error. -/
def failureMsg (taskResult : Except String RawPayload)
    (parse : RawPayload → Except String AllDefiProtocols) : Option String :=
  match taskResult with
  | .error e => some e
  | .ok raw =>
    match parse raw with
    | .error e => some e
    | .ok _ => none

/-! ## Derived notions the claims talk about -/

/-- Keys of an association list. -/
def mapKeys {β : Type} (m : List (String × β)) : List String := m.map Prod.fst

/-- An insertion-ordered record holds each key at most once. -/
def NodupKeys {β : Type} (m : List (String × β)) : Prop := (mapKeys m).Nodup

/-- The special summary the entry loop writes for one of the four specially
handled display names, `none` for every other name. -/
def inLoopSpecial (env : OverviewEnv) (q : String) : Option DefiProtocolSummary :=
  if q = AAVE then protocolSummary env .aave .defi_aave_balances q false false
  else if q = COMPOUND then
    protocolSummary env .compound .defi_compound_balances q false false
  else if q = YEARN_FINANCE_VAULTS then
    protocolSummary env .yearn_vaults .defi_yearn_vaults_balances q true false
  else if q = LIQUITY then
    protocolSummary env .liquity .defi_liquity_balances q false true
  else none

/-- The seven display names owned by specially summarized protocols. -/
def specialDisplayNames : List String :=
  [AAVE, COMPOUND, YEARN_FINANCE_VAULTS, LIQUITY, MAKERDAO_DSR, MAKERDAO_VAULTS,
   YEARN_FINANCE_VAULTS_V2]

/-- The record keys the post-loop special block writes. -/
def postLoopKeys : List String :=
  [DefiProtocol.makerdao_dsr.key, DefiProtocol.makerdao_vaults.key,
   DefiProtocol.yearn_vaults_v2.key]

/-- Boolean subsequence test: whether the first list appears in the second in
order (possibly with gaps). -/
def isSubseqOf [DecidableEq α] : List α → List α → Bool
  | [], _ => true
  | _, [] => false
  | a :: as, b :: bs => if a = b then isSubseqOf as bs else isSubseqOf (a :: as) bs

/-- Read `accounts[address]` from the accumulation record. -/
def getAccount : List (String × DefiAccount) → String → Option DefiAccount
  | [], _ => none
  | kv :: rest, a => if kv.1 = a then some kv.2 else getAccount rest a

/-- The protocols whose pair carries address `x`, in pair order with one
occurrence per pair. -/
def occOf (x : String) (ps : List (DefiProtocol × String)) : List DefiProtocol :=
  ps.filterMap (fun q => if q.2 = x then some q.1 else none)

/-- The raw address pool of a protocol before filtering and deduplication:
its balance keys followed by its history addresses. -/
def protocolRawAddresses (st : DefiAccountsState) : DefiProtocol → List String
  | .aave => st.aaveBalances ++ st.aaveHistory.norm
  | .compound => st.compoundBalances ++ st.compoundEvents
  | .yearn_vaults => st.yearnV1Balances ++ st.yearnV1History.norm
  | .yearn_vaults_v2 => st.yearnV2Balances ++ st.yearnV2History.norm
  | .makerdao_dsr => st.dsrBalances ++ st.dsrHistory.norm
  | _ => []

/-- A protocol references an address when the address appears among its
balance keys or history addresses. -/
def referencesAddress (st : DefiAccountsState) (p : DefiProtocol) (a : String) : Prop :=
  a ∈ protocolRawAddresses st p

/-- A summary's `balanceUsd` is set and strictly positive. -/
def positiveBalance (s : DefiProtocolSummary) : Bool :=
  match s.balanceUsd with
  | some b => decide ((0 : Money) < b)
  | none => false

/-! ## Concrete inputs used by counterexamples and witnesses -/

/-- An environment with every section still NOT_LOADED and zero lending
totals. -/
def exEnvIdle : OverviewEnv :=
  { status := fun _ => .not_loaded
    loanSummary := fun _ => ⟨0, 0⟩
    totalLendingDeposit := fun _ => 0
    multipleAssetsLabel := "multiple assets" }

/-- An environment whose overview section is LOADED and whose MakerDAO DSR
lending deposit is 1 USD. -/
def exEnvDsr : OverviewEnv :=
  { status := fun s => if s = .defi_overview then .loaded else .not_loaded
    loanSummary := fun _ => ⟨0, 0⟩
    totalLendingDeposit := fun p => if p = .makerdao_dsr then 1 else 0
    multipleAssetsLabel := "multiple assets" }

/-- A generic Asset entry whose USD value is exactly zero. -/
def exZeroEntry : ProtocolBalanceEntry :=
  { protocol := ⟨"Foo", "foo.svg"⟩
    baseBalance := ⟨"0xT", "Dai", "DAI", ⟨1, 0⟩⟩
    balanceType := .asset }

/-- A payload holding only the zero-value generic entry. -/
def exZeroState : AllDefiProtocols := [("0xabc", [exZeroEntry])]

/-- A generic Asset entry whose backend protocol name equals the MakerDAO DSR
display name. -/
def exDsrNamedEntry : ProtocolBalanceEntry :=
  { protocol := ⟨MAKERDAO_DSR, "maker.svg"⟩
    baseBalance := ⟨"0xT", "Dai", "DAI", ⟨1, 1⟩⟩
    balanceType := .asset }

/-- A payload holding only the DSR-named generic entry. -/
def exDsrState : AllDefiProtocols := [("0xabc", [exDsrNamedEntry])]

/-- A generic Liability entry for a protocol named "Bar". -/
def exLiabilityEntry : ProtocolBalanceEntry :=
  { protocol := ⟨"Bar", "bar.svg"⟩
    baseBalance := ⟨"0xL", "Dai", "DAI", ⟨3, 30⟩⟩
    balanceType := .liability }

/-- A payload holding only liability entries for protocol "Bar". -/
def exLiabilityState : AllDefiProtocols := [("0xabc", [exLiabilityEntry])]

/-- Asset entry (tokenAddress "0xA", amount 10, usdValue 100) for protocol
"X", as in the spec's example. -/
def exEntryA1 : ProtocolBalanceEntry :=
  { protocol := ⟨"X", "x.svg"⟩
    baseBalance := ⟨"0xA", "Dai", "DAI", ⟨10, 100⟩⟩
    balanceType := .asset }

/-- Asset entry (tokenAddress "0xA", amount 5, usdValue 50) for protocol "X". -/
def exEntryA2 : ProtocolBalanceEntry :=
  { protocol := ⟨"X", "x.svg"⟩
    baseBalance := ⟨"0xA", "Dai", "DAI", ⟨5, 50⟩⟩
    balanceType := .asset }

/-- Asset entry with a different token name, for the collapse witness. -/
def exEntryB : ProtocolBalanceEntry :=
  { protocol := ⟨"X", "x.svg"⟩
    baseBalance := ⟨"0xB", "USDC", "USDC", ⟨1, 1⟩⟩
    balanceType := .asset }

/-- The adapter state where address "0x1" has both an Aave balance and a
MakerDAO DSR balance, and nothing else exists. -/
def exAccountsState : DefiAccountsState :=
  { aaveBalances := ["0x1"]
    aaveHistory := .ofMapping []
    compoundBalances := []
    compoundEvents := []
    yearnV1Balances := []
    yearnV1History := .ofMapping []
    yearnV2Balances := []
    yearnV2History := .ofMapping []
    dsrBalances := ["0x1"]
    dsrHistory := .ofMapping [] }

/-- The account `defiAccounts` builds for "0x1" in `exAccountsState`. -/
def exAccount : DefiAccount := ⟨"0x1", ethChain, [.makerdao_dsr, .aave]⟩

/-- A fetch-layer state with no data and every section NOT_LOADED. -/
def exFetchState : DefiState :=
  { allProtocols := []
    statuses := fun _ => .not_loaded
    notifications := []
    submissions := 0 }

/-- A fetch-layer state with every section currently LOADING. -/
def exLoadingState : DefiState :=
  { allProtocols := []
    statuses := fun _ => .loading
    notifications := []
    submissions := 0 }

/-- A schema validation that fails on every payload. -/
def exParseFail : RawPayload → Except String AllDefiProtocols :=
  fun _ => .error "schema mismatch"

/-- A schema validation that accepts every payload as empty. -/
def exParseOk : RawPayload → Except String AllDefiProtocols := fun _ => .ok []

/-! ## Basic lemmas: exact arithmetic, deduplication, sorting, records -/

theorem Money.add_def (a b : Money) :
    a + b = ⟨a.num * (b.den : Int) + b.num * (a.den : Int), a.den * b.den⟩ := rfl

/-- The embedded addition is the exact rational addition: no rounding ever
happens when amounts are summed. -/
theorem Money.toRat_add (a b : Money) (ha : a.den ≠ 0) (hb : b.den ≠ 0) :
    (a + b).toRat = a.toRat + b.toRat := by
  rw [Money.add_def]
  unfold Money.toRat
  have ha' : ((a.den : Rat)) ≠ 0 := by exact_mod_cast ha
  have hb' : ((b.den : Rat)) ≠ 0 := by exact_mod_cast hb
  push_cast
  field_simp

theorem mem_dedupFirstAux (seen l : List String) (x : String) :
    x ∈ dedupFirstAux seen l ↔ x ∈ l ∧ x ∉ seen := by
  induction l generalizing seen with
  | nil => simp [dedupFirstAux]
  | cons a as ih =>
    by_cases h : a ∈ seen
    · simp only [dedupFirstAux, h, if_true, ih, List.mem_cons]
      constructor
      · exact fun ⟨hx, hs⟩ => ⟨Or.inr hx, hs⟩
      · rintro ⟨hx | hx, hs⟩
        · exact absurd (hx ▸ h) hs
        · exact ⟨hx, hs⟩
    · simp only [dedupFirstAux, h, if_false, List.mem_cons, ih]
      by_cases hx : x = a
      · subst hx; simp [h]
      · simp [hx, List.mem_cons]

theorem nodup_dedupFirstAux (seen l : List String) : (dedupFirstAux seen l).Nodup := by
  induction l generalizing seen with
  | nil => simp [dedupFirstAux]
  | cons a as ih =>
    by_cases h : a ∈ seen
    · simpa [dedupFirstAux, h] using ih seen
    · simp only [dedupFirstAux, h, if_false, List.nodup_cons]
      refine ⟨fun hmem => ?_, ih (a :: seen)⟩
      exact ((mem_dedupFirstAux _ _ a).1 hmem).2 (List.mem_cons_self a seen)

theorem mem_dedupFirst (l : List String) (x : String) :
    x ∈ dedupFirst l ↔ x ∈ l := by
  simp [dedupFirst, mem_dedupFirstAux]

theorem nodup_dedupFirst (l : List String) : (dedupFirst l).Nodup :=
  nodup_dedupFirstAux [] l

/-- Seen-set congruence: deduplication only looks at membership in the seen
set. -/
theorem dedupFirstAux_congr {s1 s2 : List String} (l : List String)
    (h : ∀ y, y ∈ s1 ↔ y ∈ s2) : dedupFirstAux s1 l = dedupFirstAux s2 l := by
  induction l generalizing s1 s2 with
  | nil => rfl
  | cons a as ih =>
    by_cases ha : a ∈ s1
    · have ha2 : a ∈ s2 := (h a).1 ha
      simp only [dedupFirstAux, ha, ha2, if_true]
      exact ih h
    · have ha2 : a ∉ s2 := fun hx => ha ((h a).2 hx)
      simp only [dedupFirstAux, ha, ha2, if_false]
      refine congrArg (a :: ·) (ih ?_)
      intro y
      simp [List.mem_cons, h y]

theorem mem_insertSorted {α : Type} (le : α → α → Bool) (x y : α) (l : List α) :
    y ∈ insertSorted le x l ↔ y = x ∨ y ∈ l := by
  induction l with
  | nil => simp [insertSorted]
  | cons a as ih =>
    by_cases h : le x a
    · simp [insertSorted, h, ih, List.mem_cons]
    · simp [insertSorted, h, ih, List.mem_cons]
      tauto

theorem mem_insertionSortB {α : Type} (le : α → α → Bool) (x : α) (l : List α) :
    x ∈ insertionSortB le l ↔ x ∈ l := by
  induction l with
  | nil => simp [insertionSortB]
  | cons a as ih => simp [insertionSortB, mem_insertSorted, ih, List.mem_cons]

theorem findSummary_setSummary_self (m : SummaryMap) (k : String)
    (v : DefiProtocolSummary) : findSummary (setSummary m k v) k = some v := by
  induction m with
  | nil => simp [setSummary, findSummary]
  | cons kv rest ih =>
    by_cases h : kv.1 = k
    · simp [setSummary, h, findSummary]
    · simp [setSummary, h, findSummary, ih]

theorem findSummary_setSummary_ne (m : SummaryMap) (k k' : String)
    (v : DefiProtocolSummary) (h : k' ≠ k) :
    findSummary (setSummary m k v) k' = findSummary m k' := by
  induction m with
  | nil => simp [setSummary, findSummary, Ne.symm h]
  | cons kv rest ih =>
    by_cases h2 : kv.1 = k
    · subst h2
      simp [setSummary, findSummary, Ne.symm h]
    · simp [setSummary, h2, findSummary, ih]

theorem mem_setSummary {m : SummaryMap} {k : String} {v : DefiProtocolSummary}
    {p : String × DefiProtocolSummary} (hp : p ∈ setSummary m k v) :
    p = (k, v) ∨ p ∈ m := by
  induction m with
  | nil => simpa [setSummary] using hp
  | cons kv rest ih =>
    by_cases h : kv.1 = k
    · simp only [setSummary, h, if_true, List.mem_cons] at hp
      rcases hp with h1 | h1
      · exact Or.inl h1
      · exact Or.inr (List.mem_cons_of_mem kv h1)
    · simp only [setSummary, h, if_false, List.mem_cons] at hp
      rcases hp with h1 | h1
      · exact Or.inr (h1 ▸ List.mem_cons_self kv rest)
      · rcases ih h1 with h2 | h2
        · exact Or.inl h2
        · exact Or.inr (List.mem_cons_of_mem kv h2)

theorem mapKeys_setSummary (m : SummaryMap) (k : String) (v : DefiProtocolSummary) :
    mapKeys (setSummary m k v)
      = if k ∈ mapKeys m then mapKeys m else mapKeys m ++ [k] := by
  induction m with
  | nil => simp [setSummary, mapKeys]
  | cons kv rest ih =>
    by_cases h : kv.1 = k
    · simp [setSummary, h, mapKeys]
    · have hh : ¬k = kv.1 := fun hx => h hx.symm
      simp only [setSummary, h, if_false, mapKeys, List.map_cons, List.mem_cons, hh,
        false_or]
      rw [show (setSummary rest k v).map Prod.fst = mapKeys (setSummary rest k v) from rfl,
        ih]
      by_cases hk : k ∈ List.map Prod.fst rest <;> simp [hk, mapKeys]

theorem nodupKeys_setSummary {m : SummaryMap} (h : NodupKeys m) (k : String)
    (v : DefiProtocolSummary) : NodupKeys (setSummary m k v) := by
  unfold NodupKeys at h ⊢
  rw [mapKeys_setSummary]
  by_cases hk : k ∈ mapKeys m
  · simpa [hk]
  · simp only [hk, if_false]
    simp [List.nodup_append, h, hk]

theorem mem_of_findSummary_eq_some {m : SummaryMap} {k : String}
    {v : DefiProtocolSummary} (h : findSummary m k = some v) : (k, v) ∈ m := by
  induction m with
  | nil => simp [findSummary] at h
  | cons kv rest ih =>
    by_cases h2 : kv.1 = k
    · simp only [findSummary, h2, if_true, Option.some.injEq] at h
      subst h
      exact h2 ▸ List.mem_cons_self kv rest
    · simp only [findSummary, h2, if_false] at h
      exact List.mem_cons_of_mem kv (ih h)

theorem findSummary_eq_none_of_not_mem {m : SummaryMap} {k : String}
    (h : k ∉ mapKeys m) : findSummary m k = none := by
  induction m with
  | nil => rfl
  | cons kv rest ih =>
    simp only [mapKeys, List.map_cons, List.mem_cons] at h
    push_neg at h
    have hne : kv.1 ≠ k := fun hx => h.1 hx.symm
    simp only [findSummary, hne, if_false]
    exact ih h.2

theorem findSummary_eq_some_of_mem {m : SummaryMap} (hnd : NodupKeys m)
    {k : String} {v : DefiProtocolSummary} (h : (k, v) ∈ m) :
    findSummary m k = some v := by
  induction m with
  | nil => simp at h
  | cons kv rest ih =>
    simp only [NodupKeys, mapKeys, List.map_cons, List.nodup_cons] at hnd
    rcases List.mem_cons.1 h with h1 | h1
    · subst h1
      simp [findSummary]
    · have hk : k ∈ mapKeys rest := List.mem_map_of_mem Prod.fst h1
      have : kv.1 ≠ k := fun hx => hnd.1 (hx ▸ hk)
      simp only [findSummary, this, if_false]
      exact ih hnd.2 h1

/-! ## Lemmas about the `defiAccounts` accumulation -/

theorem getAccount_pushAccount (m : List (String × DefiAccount)) (p : DefiProtocol)
    (addr x : String) :
    getAccount (pushAccount m p addr) x =
      if x = addr then
        match getAccount m addr with
        | some acc => some { acc with protocols := acc.protocols ++ [p] }
        | none => some ⟨addr, ethChain, [p]⟩
      else getAccount m x := by
  induction m with
  | nil =>
    by_cases h : x = addr
    · subst h; simp [pushAccount, getAccount]
    · simp [pushAccount, getAccount, h, Ne.symm h]
  | cons kv rest ih =>
    by_cases hk : kv.1 = addr
    · by_cases hx : x = addr
      · subst hx
        simp [pushAccount, getAccount, hk]
      · have hne : kv.1 ≠ x := fun e => hx (e ▸ hk ▸ rfl)
        have hax : ¬addr = x := fun e => hx e.symm
        simp [pushAccount, getAccount, hk, hx, hne, hax]
    · by_cases hx : x = addr
      · subst hx
        simp [pushAccount, getAccount, hk, ih]
      · simp only [pushAccount, hk, if_false, getAccount]
        by_cases hh : kv.1 = x
        · simp [hh, hx]
        · simp [hh, ih, hx]

theorem getAccount_foldl (ps : List (DefiProtocol × String))
    (m : List (String × DefiAccount)) (x : String) :
    getAccount (ps.foldl (fun acc q => pushAccount acc q.1 q.2) m) x =
      match getAccount m x with
      | some acc => some { acc with protocols := acc.protocols ++ occOf x ps }
      | none =>
        if occOf x ps = [] then none
        else some ⟨x, ethChain, occOf x ps⟩ := by
  induction ps generalizing m with
  | nil =>
    cases h : getAccount m x <;> simp [occOf, h]
  | cons q rest ih =>
    simp only [List.foldl_cons]
    rw [ih, getAccount_pushAccount]
    by_cases hq : x = q.2
    · rw [if_pos hq, hq]
      have hocc : occOf q.2 (q :: rest) = q.1 :: occOf q.2 rest := by
        simp [occOf, List.filterMap_cons]
      rw [hocc]
      cases h : getAccount m q.2 with
      | some acc => simp [h, List.append_assoc]
      | none => simp [h]
    · have hocc : occOf x (q :: rest) = occOf x rest := by
        have hne : ¬q.2 = x := fun e => hq e.symm
        simp [occOf, List.filterMap_cons, hne]
      rw [if_neg hq, hocc]

theorem mapKeys_pushAccount (m : List (String × DefiAccount)) (p : DefiProtocol)
    (addr : String) :
    mapKeys (pushAccount m p addr)
      = if addr ∈ mapKeys m then mapKeys m else mapKeys m ++ [addr] := by
  induction m with
  | nil => simp [pushAccount, mapKeys]
  | cons kv rest ih =>
    by_cases h : kv.1 = addr
    · simp [pushAccount, h, mapKeys]
    · have hh : ¬addr = kv.1 := fun hx => h hx.symm
      simp only [pushAccount, h, if_false, mapKeys, List.map_cons, List.mem_cons, hh,
        false_or]
      rw [show (pushAccount rest p addr).map Prod.fst = mapKeys (pushAccount rest p addr)
        from rfl, ih]
      by_cases hk : addr ∈ List.map Prod.fst rest <;> simp [hk, mapKeys]

theorem mapKeys_foldl (ps : List (DefiProtocol × String))
    (m : List (String × DefiAccount)) :
    mapKeys (ps.foldl (fun acc q => pushAccount acc q.1 q.2) m)
      = mapKeys m ++ dedupFirstAux (mapKeys m) (ps.map Prod.snd) := by
  induction ps generalizing m with
  | nil => simp [dedupFirstAux]
  | cons q rest ih =>
    simp only [List.foldl_cons, List.map_cons]
    rw [ih, mapKeys_pushAccount]
    by_cases h : q.2 ∈ mapKeys m
    · simp [h, dedupFirstAux]
    · simp only [h, if_false, dedupFirstAux, List.append_assoc, List.singleton_append]
      congr 2
      apply dedupFirstAux_congr
      intro y
      simp [List.mem_append, List.mem_cons]
      tauto

theorem getAccount_buildAccounts (ps : List (DefiProtocol × String)) (x : String) :
    getAccount (buildAccounts ps) x =
      if occOf x ps = [] then none else some ⟨x, ethChain, occOf x ps⟩ := by
  unfold buildAccounts
  rw [getAccount_foldl]
  rfl

theorem mapKeys_buildAccounts (ps : List (DefiProtocol × String)) :
    mapKeys (buildAccounts ps) = dedupFirst (ps.map Prod.snd) := by
  unfold buildAccounts dedupFirst
  rw [mapKeys_foldl]
  rfl

theorem getAccount_eq_some_of_mem {m : List (String × DefiAccount)}
    (hnd : (mapKeys m).Nodup) {kv : String × DefiAccount} (h : kv ∈ m) :
    getAccount m kv.1 = some kv.2 := by
  induction m with
  | nil => simp at h
  | cons hd rest ih =>
    simp only [mapKeys, List.map_cons, List.nodup_cons] at hnd
    rcases List.mem_cons.1 h with h1 | h1
    · subst h1
      simp [getAccount]
    · have hk : kv.1 ∈ List.map Prod.fst rest := List.mem_map_of_mem Prod.fst h1
      have hne : hd.1 ≠ kv.1 := fun hx => hnd.1 (hx ▸ hk)
      simp only [getAccount, hne, if_false]
      exact ih hnd.2 h1

theorem mem_buildAccounts_eq {ps : List (DefiProtocol × String)}
    {kv : String × DefiAccount} (h : kv ∈ buildAccounts ps) :
    kv.2 = ⟨kv.1, ethChain, occOf kv.1 ps⟩ := by
  have hnd : (mapKeys (buildAccounts ps)).Nodup := by
    rw [mapKeys_buildAccounts]; exact nodup_dedupFirst _
  have hget := getAccount_eq_some_of_mem hnd h
  rw [getAccount_buildAccounts] at hget
  by_cases hocc : occOf kv.1 ps = []
  · simp [hocc] at hget
  · simp only [hocc, if_false, Option.some.injEq] at hget
    exact hget.symm

theorem occOf_append (x : String) (l1 l2 : List (DefiProtocol × String)) :
    occOf x (l1 ++ l2) = occOf x l1 ++ occOf x l2 := by
  simp [occOf, List.filterMap_append]

theorem occOf_map_pair_nil (x : String) (p : DefiProtocol) (l : List String)
    (hx : x ∉ l) : occOf x (l.map (fun a => (p, a))) = [] := by
  induction l with
  | nil => rfl
  | cons a as ih =>
    simp only [List.mem_cons] at hx
    push_neg at hx
    have : ¬a = x := fun e => hx.1 e.symm
    simp only [List.map_cons, occOf, List.filterMap_cons, this, if_false]
    exact ih hx.2

theorem occOf_map_pair (x : String) (p : DefiProtocol) (l : List String)
    (hnd : l.Nodup) :
    occOf x (l.map (fun a => (p, a))) = if x ∈ l then [p] else [] := by
  induction l with
  | nil => simp [occOf]
  | cons a as ih =>
    rcases List.nodup_cons.1 hnd with ⟨ha, hnd2⟩
    by_cases h : a = x
    · subst h
      have htail : occOf a (as.map (fun a' => (p, a'))) = [] := occOf_map_pair_nil a p as ha
      simp [occOf, List.filterMap_cons, List.mem_cons]
      simpa [occOf] using htail
    · have hxa : ¬x = a := fun e => h e.symm
      have hx : (x ∈ a :: as) ↔ x ∈ as := by
        simp [List.mem_cons, hxa]
      simp only [List.map_cons, occOf, List.filterMap_cons, h, if_false, hx]
      exact ih hnd2

theorem nodup_protocolAddrList (st : DefiAccountsState) (fltr : List DefiProtocol)
    (p : DefiProtocol) : (protocolAddrList st fltr p).Nodup := by
  cases p <;>
    simp only [protocolAddrList, getProtocolAddresses] <;>
    first
      | exact List.nodup_nil
      | (split
         · exact nodup_dedupFirst _
         · exact List.nodup_nil)

theorem occOf_flatMap_pairs (l : List DefiProtocol) (f : DefiProtocol → List String)
    (x : String) (hnd : ∀ p, (f p).Nodup) :
    occOf x (l.flatMap (fun p => (f p).map (fun a => (p, a))))
      = l.filter (fun p => decide (x ∈ f p)) := by
  induction l with
  | nil => simp [occOf]
  | cons p rest ih =>
    simp only [List.flatMap_cons, occOf_append, ih, occOf_map_pair x p (f p) (hnd p),
      List.filter_cons]
    by_cases h : x ∈ f p <;> simp [h]

theorem occOf_accountPairs (st : DefiAccountsState) (fltr : List DefiProtocol)
    (x : String) :
    occOf x (accountPairs st fltr)
      = protocolIterationOrder.filter (fun p => decide (x ∈ protocolAddrList st fltr p)) :=
  occOf_flatMap_pairs protocolIterationOrder (protocolAddrList st fltr) x
    (nodup_protocolAddrList st fltr)

theorem mem_getProtocolAddresses (fltr : List DefiProtocol) (p : DefiProtocol)
    (bal : List String) (hist : HistoryInput) (x : String) :
    x ∈ getProtocolAddresses fltr p bal hist ↔
      (fltr = [] ∨ p ∈ fltr) ∧ x ∈ bal ++ hist.norm := by
  unfold getProtocolAddresses
  by_cases hc : fltr = [] ∨ p ∈ fltr
  · simp [hc, mem_dedupFirst]
  · simp [hc]

theorem mem_protocolAddrList (st : DefiAccountsState) (fltr : List DefiProtocol)
    (p : DefiProtocol) (x : String) :
    x ∈ protocolAddrList st fltr p ↔
      p ∈ protocolIterationOrder ∧ (fltr = [] ∨ p ∈ fltr) ∧
        referencesAddress st p x := by
  cases p <;>
    simp [protocolAddrList, protocolIterationOrder, mem_getProtocolAddresses,
      referencesAddress, protocolRawAddresses, HistoryInput.norm]

theorem accountPairs_snd (st : DefiAccountsState) (fltr : List DefiProtocol) :
    (accountPairs st fltr).map Prod.snd
      = protocolIterationOrder.flatMap (protocolAddrList st fltr) := by
  unfold accountPairs
  simp [protocolIterationOrder, List.flatMap_cons, List.flatMap_nil, List.map_append,
    List.map_map, Function.comp]

theorem defiAccounts_mem_eq {st : DefiAccountsState} {fltr : List DefiProtocol}
    {acc : DefiAccount} (h : acc ∈ defiAccounts st fltr) :
    acc = ⟨acc.address, ethChain, occOf acc.address (accountPairs st fltr)⟩ := by
  unfold defiAccounts at h
  rcases List.mem_map.1 h with ⟨kv, hkv, rfl⟩
  have := mem_buildAccounts_eq hkv
  rw [this]

/-- Addresses returned by `defiAccounts`: the first-seen order of the flattened
per-protocol address lists, protocols visited in object-literal key order. -/
theorem defiAccounts_addresses (st : DefiAccountsState) (fltr : List DefiProtocol) :
    (defiAccounts st fltr).map DefiAccount.address
      = dedupFirst (protocolIterationOrder.flatMap (protocolAddrList st fltr)) := by
  have h1 : (defiAccounts st fltr).map DefiAccount.address
      = mapKeys (buildAccounts (accountPairs st fltr)) := by
    unfold defiAccounts mapKeys
    rw [List.map_map]
    apply List.map_congr_left
    intro kv hkv
    have h2 := mem_buildAccounts_eq hkv
    show kv.2.address = kv.1
    rw [h2]
  rw [h1, mapKeys_buildAccounts, accountPairs_snd]

/-- The protocols of a returned account: the fixed iteration order filtered to
the protocols whose (filtered, deduplicated) address list carries the
account's address. -/
theorem defiAccounts_protocols {st : DefiAccountsState} {fltr : List DefiProtocol}
    {acc : DefiAccount} (h : acc ∈ defiAccounts st fltr) :
    acc.protocols = protocolIterationOrder.filter
      (fun p => decide (acc.address ∈ protocolAddrList st fltr p)) := by
  have h1 := defiAccounts_mem_eq h
  have h2 := congrArg DefiAccount.protocols h1
  simp only at h2
  rw [h2, occOf_accountPairs]

/-- Claim C3, counterexample: the claim states the fixed iteration order
AAVE, COMPOUND, YEARN_VAULTS, YEARN_VAULTS_V2, MAKERDAO_DSR, so an address
present both in the Aave and the MakerDAO DSR balances would list AAVE before
MAKERDAO_DSR. On the concrete state where "0x1" has both, `defiAccounts`
returns the protocols as [MAKERDAO_DSR, AAVE], which is not a subsequence of
the claimed order: the accumulator object literal inserts MAKERDAO_DSR first,
and `for...in` visits string keys in insertion order. -/
theorem claim3_counterexample :
    exAccount ∈ defiAccounts exAccountsState [] ∧
    isSubseqOf exAccount.protocols
      [DefiProtocol.aave, DefiProtocol.compound, DefiProtocol.yearn_vaults,
       DefiProtocol.yearn_vaults_v2, DefiProtocol.makerdao_dsr] = false := by
  decide

/-- Claim C3, amended: `defiAccounts` iterates protocols in the fixed order
MAKERDAO_DSR, AAVE, COMPOUND, YEARN_VAULTS, YEARN_VAULTS_V2 (the accumulator
object's key insertion order), so each account's protocols list is that fixed
sequence restricted to the protocols referencing the address, and the output
is in first-seen address order under that same iteration. -/
theorem claim3_amended (st : DefiAccountsState) (fltr : List DefiProtocol) :
    (defiAccounts st fltr).map DefiAccount.address
      = dedupFirst (protocolIterationOrder.flatMap (protocolAddrList st fltr)) ∧
    ∀ acc ∈ defiAccounts st fltr,
      acc.protocols = protocolIterationOrder.filter
        (fun p => decide (acc.address ∈ protocolAddrList st fltr p)) :=
  ⟨defiAccounts_addresses st fltr, fun _ hacc => defiAccounts_protocols hacc⟩

/-- Claim C3, witness: on the concrete two-protocol state the amended claim
instantiates to the MakerDAO-DSR-first protocol list for "0x1". -/
theorem claim3_witness :
    (defiAccounts exAccountsState []).map DefiAccount.address
      = dedupFirst (protocolIterationOrder.flatMap (protocolAddrList exAccountsState [])) ∧
    exAccount.protocols = protocolIterationOrder.filter
      (fun p => decide (exAccount.address ∈ protocolAddrList exAccountsState [] p)) :=
  ⟨(claim3_amended exAccountsState []).1,
   (claim3_amended exAccountsState []).2 exAccount (by decide)⟩

/-- Claim C6: `defiAccounts(filter)` returns each address at most once, and
each account's protocols list holds, without duplicates, exactly the eligible
protocols (restricted to the filter when it is non-empty) whose balance keys
or history addresses include that address. -/
theorem claim6_accounts (st : DefiAccountsState) (fltr : List DefiProtocol) :
    ((defiAccounts st fltr).map DefiAccount.address).Nodup ∧
    ∀ acc ∈ defiAccounts st fltr,
      acc.protocols.Nodup ∧
      ∀ p : DefiProtocol,
        p ∈ acc.protocols ↔
          p ∈ protocolIterationOrder ∧ (fltr = [] ∨ p ∈ fltr) ∧
            referencesAddress st p acc.address := by
  refine ⟨?_, fun acc hacc => ⟨?_, fun p => ?_⟩⟩
  · rw [defiAccounts_addresses]
    exact nodup_dedupFirst _
  · rw [defiAccounts_protocols hacc]
    exact List.Nodup.filter _ (by decide)
  · rw [defiAccounts_protocols hacc]
    rw [List.mem_filter]
    simp only [decide_eq_true_eq]
    rw [mem_protocolAddrList]
    tauto

/-- Claim C6, witness: the amended account list of the concrete state has
unique addresses and a duplicate-free protocol list for "0x1". -/
theorem claim6_witness :
    ((defiAccounts exAccountsState []).map DefiAccount.address).Nodup ∧
    exAccount.protocols.Nodup ∧
    (DefiProtocol.aave ∈ exAccount.protocols ↔
      DefiProtocol.aave ∈ protocolIterationOrder ∧
        (([] : List DefiProtocol) = [] ∨ DefiProtocol.aave ∈ ([] : List DefiProtocol)) ∧
        referencesAddress exAccountsState DefiProtocol.aave exAccount.address) :=
  ⟨(claim6_accounts exAccountsState []).1,
   ((claim6_accounts exAccountsState []).2 exAccount (by decide)).1,
   ((claim6_accounts exAccountsState []).2 exAccount (by decide)).2 DefiProtocol.aave⟩

/-! ## Lemmas about the generic accumulation steps -/

theorem collapseTokenInfo_assets (label : String) (s : DefiProtocolSummary)
    (e : ProtocolBalanceEntry) : (collapseTokenInfo label s e).assets = s.assets := by
  unfold collapseTokenInfo
  split <;> rfl

theorem collapseTokenInfo_protocol (label : String) (s : DefiProtocolSummary)
    (e : ProtocolBalanceEntry) : (collapseTokenInfo label s e).protocol = s.protocol := by
  unfold collapseTokenInfo
  split <;> rfl

theorem collapseTokenInfo_balanceUsd (label : String) (s : DefiProtocolSummary)
    (e : ProtocolBalanceEntry) :
    (collapseTokenInfo label s e).balanceUsd = s.balanceUsd := by
  unfold collapseTokenInfo
  split <;> rfl

theorem collapseTokenInfo_deposits (label : String) (s : DefiProtocolSummary)
    (e : ProtocolBalanceEntry) : (collapseTokenInfo label s e).deposits = s.deposits := by
  unfold collapseTokenInfo
  split <;> rfl

theorem collapseTokenInfo_liabilities (label : String) (s : DefiProtocolSummary)
    (e : ProtocolBalanceEntry) :
    (collapseTokenInfo label s e).liabilities = s.liabilities := by
  unfold collapseTokenInfo
  split <;> rfl

theorem assetStep_tokenInfo (s : DefiProtocolSummary) (e : ProtocolBalanceEntry) :
    (assetStep s e).tokenInfo = s.tokenInfo := by
  unfold assetStep
  split <;> rfl

theorem assetStep_protocol (s : DefiProtocolSummary) (e : ProtocolBalanceEntry) :
    (assetStep s e).protocol = s.protocol := by
  unfold assetStep
  split <;> rfl

theorem assetStep_deposits (s : DefiProtocolSummary) (e : ProtocolBalanceEntry) :
    (assetStep s e).deposits = s.deposits := by
  unfold assetStep
  split <;> rfl

theorem assetStep_liabilities (s : DefiProtocolSummary) (e : ProtocolBalanceEntry) :
    (assetStep s e).liabilities = s.liabilities := by
  unfold assetStep
  split <;> rfl

/-- A Liability entry leaves the summary untouched by the balance
accumulation: no contribution to `balanceUsd` or `assets`. -/
theorem assetStep_liability (s : DefiProtocolSummary) (e : ProtocolBalanceEntry)
    (h : e.balanceType = BalanceType.liability) : assetStep s e = s := by
  unfold assetStep
  rw [h]
  simp

theorem mergeAssets_fresh (as : List DefiAsset) (b : DefiAsset)
    (h : ∀ x ∈ as, x.tokenAddress ≠ b.tokenAddress) : mergeAssets as b = as ++ [b] := by
  induction as with
  | nil => rfl
  | cons a rest ih =>
    have ha := h a (List.mem_cons_self a rest)
    simp only [mergeAssets, ha, if_false, List.cons_append]
    rw [ih (fun x hx => h x (List.mem_cons_of_mem a hx))]

theorem mergeAssets_append_match (as1 : List DefiAsset) (a0 b : DefiAsset)
    (as2 : List DefiAsset) (h1 : ∀ x ∈ as1, x.tokenAddress ≠ b.tokenAddress)
    (h0 : a0.tokenAddress = b.tokenAddress) :
    mergeAssets (as1 ++ a0 :: as2) b
      = as1 ++ { a0 with balance :=
          ⟨b.balance.amount + a0.balance.amount,
           b.balance.usdValue + a0.balance.usdValue⟩ } :: as2 := by
  induction as1 with
  | nil => simp [mergeAssets, h0]
  | cons a rest ih =>
    have ha := h1 a (List.mem_cons_self a rest)
    simp only [List.cons_append, mergeAssets, ha, if_false]
    exact congrArg (a :: ·) (ih (fun x hx => h1 x (List.mem_cons_of_mem a hx)))

/-! ## Lemmas about the summary record transformations of `overview` -/

/-- A defined `protocolSummary` carries exactly the display name it was
given. -/
theorem protocolSummary_name {env : OverviewEnv} {protocol : DefiProtocol}
    {sec : Section} {name : String} {noLiabilities noDeposits : Bool}
    {s : DefiProtocolSummary}
    (h : protocolSummary env protocol sec name noLiabilities noDeposits = some s) :
    s.protocol.name = name := by
  unfold protocolSummary at h
  by_cases hst : env.status sec ≠ Status.loaded ∧ env.status sec ≠ Status.refreshing
  · rw [if_pos hst] at h
    exact Option.noConfusion h
  · rw [if_neg hst] at h
    injection h with h2
    rw [← h2]

/-- Names written by the in-loop special path match their key and are the
given display name. -/
theorem inLoopSpecial_name {env : OverviewEnv} {q : String} {s : DefiProtocolSummary}
    (h : inLoopSpecial env q = some s) : s.protocol.name = q := by
  unfold inLoopSpecial at h
  split at h
  · exact protocolSummary_name h
  · split at h
    · exact protocolSummary_name h
    · split at h
      · exact protocolSummary_name h
      · split at h
        · exact protocolSummary_name h
        · exact absurd h (by simp)

theorem findSummary_specialWrite_ne (m : SummaryMap) (k : String)
    (o : Option DefiProtocolSummary) (q : String) (h : q ≠ k) :
    findSummary (specialWrite m k o) q = findSummary m q := by
  unfold specialWrite
  cases o with
  | none => rfl
  | some s =>
    by_cases hd : shouldDisplay s <;> simp only [hd, if_true, if_false]
    · exact findSummary_setSummary_ne m k q s h
    · rfl

theorem mem_specialWrite {m : SummaryMap} {k : String}
    {o : Option DefiProtocolSummary} {p : String × DefiProtocolSummary}
    (hp : p ∈ specialWrite m k o) :
    (∃ s, p = (k, s) ∧ o = some s ∧ shouldDisplay s = true) ∨ p ∈ m := by
  unfold specialWrite at hp
  cases o with
  | none => exact Or.inr hp
  | some s =>
    by_cases hd : shouldDisplay s
    · simp only [hd, if_true] at hp
      rcases mem_setSummary hp with h1 | h1
      · exact Or.inl ⟨s, h1, rfl, hd⟩
      · exact Or.inr h1
    · simp only [hd, if_false] at hp
      exact Or.inr hp

theorem nodupKeys_specialWrite {m : SummaryMap} (h : NodupKeys m) (k : String)
    (o : Option DefiProtocolSummary) : NodupKeys (specialWrite m k o) := by
  unfold specialWrite
  cases o with
  | none => exact h
  | some s =>
    by_cases hd : shouldDisplay s <;> simp only [hd, if_true, if_false]
    · exact nodupKeys_setSummary h k s
    · exact h

theorem findSummary_genericStep_ne (label : String) (m : SummaryMap)
    (e : ProtocolBalanceEntry) (q : String) (h : q ≠ e.protocol.name) :
    findSummary (genericStep label m e) q = findSummary m q := by
  unfold genericStep
  cases h2 : findSummary m e.protocol.name <;>
    simp only [h2] <;>
    exact findSummary_setSummary_ne m e.protocol.name q _ h

theorem mem_genericStep {label : String} {m : SummaryMap} {e : ProtocolBalanceEntry}
    {p : String × DefiProtocolSummary} (hp : p ∈ genericStep label m e) :
    (findSummary m e.protocol.name = none ∧
      p = (e.protocol.name, assetStep (seedSummary e) e)) ∨
    (∃ s, findSummary m e.protocol.name = some s ∧
      p = (e.protocol.name, genericUpdate label s e)) ∨
    p ∈ m := by
  unfold genericStep at hp
  cases h2 : findSummary m e.protocol.name with
  | none =>
    rw [h2] at hp
    rcases mem_setSummary hp with h1 | h1
    · exact Or.inl ⟨rfl, h1⟩
    · exact Or.inr (Or.inr h1)
  | some s =>
    rw [h2] at hp
    rcases mem_setSummary hp with h1 | h1
    · exact Or.inr (Or.inl ⟨s, rfl, h1⟩)
    · exact Or.inr (Or.inr h1)

theorem nodupKeys_genericStep {m : SummaryMap} (h : NodupKeys m) (label : String)
    (e : ProtocolBalanceEntry) : NodupKeys (genericStep label m e) := by
  unfold genericStep
  cases h2 : findSummary m e.protocol.name <;>
    simp only [h2] <;>
    exact nodupKeys_setSummary h _ _

/-- The four in-loop special branches of `entryStep` are exactly a
`specialWrite` of `inLoopSpecial`; every other name goes down the generic
path. -/
theorem entryStep_eq (env : OverviewEnv) (m : SummaryMap) (e : ProtocolBalanceEntry) :
    entryStep env m e =
      if e.protocol.name = AAVE ∨ e.protocol.name = COMPOUND ∨
          e.protocol.name = YEARN_FINANCE_VAULTS ∨ e.protocol.name = LIQUITY then
        specialWrite m e.protocol.name (inLoopSpecial env e.protocol.name)
      else genericStep env.multipleAssetsLabel m e := by
  have d21 : ¬(COMPOUND = AAVE) := by decide
  have d31 : ¬(YEARN_FINANCE_VAULTS = AAVE) := by decide
  have d32 : ¬(YEARN_FINANCE_VAULTS = COMPOUND) := by decide
  have d41 : ¬(LIQUITY = AAVE) := by decide
  have d42 : ¬(LIQUITY = COMPOUND) := by decide
  have d43 : ¬(LIQUITY = YEARN_FINANCE_VAULTS) := by decide
  unfold entryStep inLoopSpecial
  by_cases h1 : e.protocol.name = AAVE
  · simp [h1]
  · by_cases h2 : e.protocol.name = COMPOUND
    · simp [h1, h2, d21]
    · by_cases h3 : e.protocol.name = YEARN_FINANCE_VAULTS
      · simp [h1, h2, h3, d31, d32]
      · by_cases h4 : e.protocol.name = LIQUITY
        · simp [h1, h2, h3, h4, d41, d42, d43]
        · simp [h1, h2, h3, h4]

theorem nodupKeys_entryStep {m : SummaryMap} (h : NodupKeys m) (env : OverviewEnv)
    (e : ProtocolBalanceEntry) : NodupKeys (entryStep env m e) := by
  rw [entryStep_eq]
  split
  · exact nodupKeys_specialWrite h _ _
  · exact nodupKeys_genericStep h _ _

theorem findSummary_applySpecial_ne (env : OverviewEnv) (m : SummaryMap) (q : String)
    (hq : q ∉ postLoopKeys) :
    findSummary (applySpecialSummaries env m) q = findSummary m q := by
  have hq1 : q ≠ DefiProtocol.makerdao_dsr.key := fun h => hq (by simp [postLoopKeys, h])
  have hq2 : q ≠ DefiProtocol.makerdao_vaults.key := fun h => hq (by simp [postLoopKeys, h])
  have hq3 : q ≠ DefiProtocol.yearn_vaults_v2.key := fun h => hq (by simp [postLoopKeys, h])
  unfold applySpecialSummaries
  split
  · rw [findSummary_specialWrite_ne _ _ _ _ hq3, findSummary_specialWrite_ne _ _ _ _ hq2,
      findSummary_specialWrite_ne _ _ _ _ hq1]
  · rfl

theorem mem_applySpecial {env : OverviewEnv} {m : SummaryMap}
    {p : String × DefiProtocolSummary} (hp : p ∈ applySpecialSummaries env m) :
    p ∈ m ∨ (p.1 ∈ postLoopKeys ∧ p.2.protocol.name ∈ specialDisplayNames) := by
  unfold applySpecialSummaries at hp
  split at hp
  · rcases mem_specialWrite hp with ⟨s, hps, ho, _⟩ | hp2
    · subst hps
      refine Or.inr ⟨(by decide : DefiProtocol.yearn_vaults_v2.key ∈ postLoopKeys), ?_⟩
      show s.protocol.name ∈ specialDisplayNames
      rw [protocolSummary_name ho]
      decide
    · rcases mem_specialWrite hp2 with ⟨s, hps, ho, _⟩ | hp3
      · subst hps
        have hs : makerDAOVaultSummary env = s := by injection ho
        refine Or.inr ⟨(by decide : DefiProtocol.makerdao_vaults.key ∈ postLoopKeys), ?_⟩
        show s.protocol.name ∈ specialDisplayNames
        rw [← hs]
        exact (by decide : MAKERDAO_VAULTS ∈ specialDisplayNames)
      · rcases mem_specialWrite hp3 with ⟨s, hps, ho, _⟩ | hp4
        · subst hps
          have hs : makerDAODSRSummary env = s := by injection ho
          refine Or.inr ⟨(by decide : DefiProtocol.makerdao_dsr.key ∈ postLoopKeys), ?_⟩
          show s.protocol.name ∈ specialDisplayNames
          rw [← hs]
          exact (by decide : MAKERDAO_DSR ∈ specialDisplayNames)
        · exact Or.inl hp4
  · exact Or.inl hp

theorem nodupKeys_applySpecial {m : SummaryMap} (h : NodupKeys m) (env : OverviewEnv) :
    NodupKeys (applySpecialSummaries env m) := by
  unfold applySpecialSummaries
  split
  · exact nodupKeys_specialWrite (nodupKeys_specialWrite (nodupKeys_specialWrite h _ _) _ _) _ _
  · exact h

/-! ## Invariants of the entry loop -/

/-- Only the special path writes under one of the four specially handled
display names: any record entry at such a key is the dedicated special
summary, and it passed `shouldDisplay`. -/
theorem inLoopInv_foldl (env : OverviewEnv) (q : String)
    (hq : q = AAVE ∨ q = COMPOUND ∨ q = YEARN_FINANCE_VAULTS ∨ q = LIQUITY)
    (es : List ProtocolBalanceEntry) (m : SummaryMap)
    (hm : ∀ s, (q, s) ∈ m → inLoopSpecial env q = some s ∧ shouldDisplay s = true) :
    ∀ s, (q, s) ∈ es.foldl (entryStep env) m →
      inLoopSpecial env q = some s ∧ shouldDisplay s = true := by
  induction es generalizing m with
  | nil => exact hm
  | cons e rest ih =>
    simp only [List.foldl_cons]
    apply ih
    intro s hs
    rw [entryStep_eq] at hs
    by_cases hsp : e.protocol.name = AAVE ∨ e.protocol.name = COMPOUND ∨
        e.protocol.name = YEARN_FINANCE_VAULTS ∨ e.protocol.name = LIQUITY
    · rw [if_pos hsp] at hs
      rcases mem_specialWrite hs with ⟨s', hps, ho, hd⟩ | hmem
      · have hk : q = e.protocol.name := congrArg Prod.fst hps
        have hv : s = s' := congrArg Prod.snd hps
        subst hv
        rw [hk]
        exact ⟨ho, hd⟩
      · exact hm s hmem
    · rw [if_neg hsp] at hs
      have hne : q ≠ e.protocol.name := fun h => hsp (h ▸ hq)
      rcases mem_genericStep hs with ⟨_, hps⟩ | ⟨s', _, hps⟩ | hmem
      · exact absurd (congrArg Prod.fst hps) hne
      · exact absurd (congrArg Prod.fst hps) hne
      · exact hm s hmem

/-- A key owned by a generic protocol whose entries are all Liability entries
never gains a `balanceUsd` and keeps both flags down throughout the entry
loop. -/
theorem liabilityInv_foldl (env : OverviewEnv) (q : String)
    (hq4 : ¬(q = AAVE ∨ q = COMPOUND ∨ q = YEARN_FINANCE_VAULTS ∨ q = LIQUITY))
    (es : List ProtocolBalanceEntry)
    (hes : ∀ e ∈ es, e.protocol.name = q → e.balanceType = BalanceType.liability)
    (m : SummaryMap)
    (hm : ∀ s, (q, s) ∈ m →
      s.balanceUsd = none ∧ s.deposits = false ∧ s.liabilities = false) :
    ∀ s, (q, s) ∈ es.foldl (entryStep env) m →
      s.balanceUsd = none ∧ s.deposits = false ∧ s.liabilities = false := by
  induction es generalizing m with
  | nil => exact hm
  | cons e rest ih =>
    simp only [List.foldl_cons]
    apply ih (fun e' he' => hes e' (List.mem_cons_of_mem e he'))
    intro s hs
    rw [entryStep_eq] at hs
    by_cases hsp : e.protocol.name = AAVE ∨ e.protocol.name = COMPOUND ∨
        e.protocol.name = YEARN_FINANCE_VAULTS ∨ e.protocol.name = LIQUITY
    · rw [if_pos hsp] at hs
      rcases mem_specialWrite hs with ⟨s', hps, _, _⟩ | hmem
      · have hk : q = e.protocol.name := congrArg Prod.fst hps
        exact absurd (by rw [← hk] at hsp; exact hsp) hq4
      · exact hm s hmem
    · rw [if_neg hsp] at hs
      by_cases hne : q = e.protocol.name
      · have hliab : e.balanceType = BalanceType.liability :=
          hes e (List.mem_cons_self e rest) hne.symm
        rcases mem_genericStep hs with ⟨_, hps⟩ | ⟨s', hsome, hps⟩ | hmem
        · have hv : s = assetStep (seedSummary e) e := congrArg Prod.snd hps
          rw [hv, assetStep_liability _ _ hliab]
          exact ⟨rfl, rfl, rfl⟩
        · have hv : s = genericUpdate env.multipleAssetsLabel s' e :=
            congrArg Prod.snd hps
          have hmem' := mem_of_findSummary_eq_some hsome
          rw [← hne] at hmem'
          have hs' := hm s' hmem'
          rw [hv]
          unfold genericUpdate
          rw [assetStep_liability _ _ hliab]
          exact ⟨(collapseTokenInfo_balanceUsd _ _ _).trans hs'.1,
            (collapseTokenInfo_deposits _ _ _).trans hs'.2.1,
            (collapseTokenInfo_liabilities _ _ _).trans hs'.2.2⟩
        · exact hm s hmem
      · rcases mem_genericStep hs with ⟨_, hps⟩ | ⟨s', _, hps⟩ | hmem
        · exact absurd (congrArg Prod.fst hps) hne
        · exact absurd (congrArg Prod.fst hps) hne
        · exact hm s hmem

/-- Every record entry written by the entry loop displays the name it is keyed
under. -/
theorem nameKey_foldl (env : OverviewEnv) (es : List ProtocolBalanceEntry)
    (m : SummaryMap)
    (hm : ∀ kv ∈ m, (kv : String × DefiProtocolSummary).2.protocol.name = kv.1) :
    ∀ kv ∈ es.foldl (entryStep env) m,
      (kv : String × DefiProtocolSummary).2.protocol.name = kv.1 := by
  induction es generalizing m with
  | nil => exact hm
  | cons e rest ih =>
    simp only [List.foldl_cons]
    apply ih
    intro kv hkv
    rw [entryStep_eq] at hkv
    by_cases hsp : e.protocol.name = AAVE ∨ e.protocol.name = COMPOUND ∨
        e.protocol.name = YEARN_FINANCE_VAULTS ∨ e.protocol.name = LIQUITY
    · rw [if_pos hsp] at hkv
      rcases mem_specialWrite hkv with ⟨s, hps, ho, _⟩ | hmem
      · subst hps
        exact inLoopSpecial_name ho
      · exact hm kv hmem
    · rw [if_neg hsp] at hkv
      rcases mem_genericStep hkv with ⟨_, hps⟩ | ⟨s, hfind, hps⟩ | hmem
      · subst hps
        show (assetStep (seedSummary e) e).protocol.name = e.protocol.name
        rw [assetStep_protocol]
        rfl
      · subst hps
        show (genericUpdate env.multipleAssetsLabel s e).protocol.name = e.protocol.name
        unfold genericUpdate
        rw [assetStep_protocol, collapseTokenInfo_protocol]
        exact hm (e.protocol.name, s) (mem_of_findSummary_eq_some hfind)
      · exact hm kv hmem

theorem nodupKeys_foldl (env : OverviewEnv) (es : List ProtocolBalanceEntry)
    (m : SummaryMap) (h : NodupKeys m) : NodupKeys (es.foldl (entryStep env) m) := by
  induction es generalizing m with
  | nil => exact h
  | cons e rest ih => exact ih _ (nodupKeys_entryStep h env e)

theorem nodupKeys_summaryMap (env : OverviewEnv) (A : AllDefiProtocols) :
    NodupKeys (summaryMap env A) := by
  unfold summaryMap
  exact nodupKeys_applySpecial
    (nodupKeys_foldl env _ [] (by simp [NodupKeys, mapKeys])) env

/-- Every record entry of the full summary record either displays its key as
name, or is one of the three post-loop specials. -/
theorem summaryMap_nameKey {env : OverviewEnv} {A : AllDefiProtocols}
    {kv : String × DefiProtocolSummary} (hkv : kv ∈ summaryMap env A) :
    kv.2.protocol.name = kv.1 ∨
      (kv.1 ∈ postLoopKeys ∧ kv.2.protocol.name ∈ specialDisplayNames) := by
  unfold summaryMap at hkv
  rcases mem_applySpecial hkv with h1 | h1
  · exact Or.inl (nameKey_foldl env _ [] (by simp) kv h1)
  · exact Or.inr h1

/-- Membership in `overview` comes from a record entry that survived the final
filter. -/
theorem mem_overview {env : OverviewEnv} {A : AllDefiProtocols}
    {s : DefiProtocolSummary} (hs : s ∈ overview env A) :
    overviewKeep s = true ∧ ∃ kv ∈ summaryMap env A, Prod.snd kv = s := by
  unfold overview at hs
  refine ⟨List.of_mem_filter hs, ?_⟩
  have h2 := List.mem_of_mem_filter hs
  rw [mem_insertionSortB] at h2
  rcases List.mem_map.1 h2 with ⟨kv, hkv, hkv2⟩
  exact ⟨kv, hkv, hkv2⟩

/-! ## Claims about the overview -/

/-- Claim C1, counterexample: a generic Asset entry whose USD value is exactly
zero yields a summary with `balanceUsd` set to zero, `deposits` and
`liabilities` false, yet it is kept by `overview`: the final filter tests
`value.balanceUsd` for truthiness, and a BigNumber object is truthy even at
zero. So not every returned summary has a strictly positive `balanceUsd`, a
deposits flag or a liabilities flag. -/
theorem claim1_counterexample :
    ¬∀ s ∈ overview exEnvIdle exZeroState,
        positiveBalance s = true ∨ s.deposits = true ∨ s.liabilities = true := by
  decide

/-- Claim C1, amended: `overview` excludes any summary whose `balanceUsd` is
unset AND whose flags are both false; every returned summary has `balanceUsd`
set (possibly to zero), or `deposits` true, or `liabilities` true. -/
theorem claim1_amended (env : OverviewEnv) (A : AllDefiProtocols) :
    ∀ s ∈ overview env A,
      s.balanceUsd.isSome = true ∨ s.deposits = true ∨ s.liabilities = true := by
  intro s hs
  have h := (mem_overview hs).1
  unfold overviewKeep at h
  rcases Bool.or_eq_true_iff.1 h with h1 | h1
  · rcases Bool.or_eq_true_iff.1 h1 with h2 | h2
    · exact Or.inl h2
    · exact Or.inr (Or.inl h2)
  · exact Or.inr (Or.inr h1)

/-- Claim C1, witness: the zero-value generic summary is in the overview and
satisfies the amended disjunction through its set-but-zero `balanceUsd`. -/
theorem claim1_witness :
    (assetStep (seedSummary exZeroEntry) exZeroEntry).balanceUsd.isSome = true ∨
    (assetStep (seedSummary exZeroEntry) exZeroEntry).deposits = true ∨
    (assetStep (seedSummary exZeroEntry) exZeroEntry).liabilities = true :=
  claim1_amended exEnvIdle exZeroState _ (by decide)

/-- Claim C4: in the generic path, an Asset entry with a fresh token address
is appended as a new asset slot; a second Asset entry with the same token
address leaves exactly one slot for that address, holding the exact sums of
the two amounts and USD values, and the USD sum equals the exact rational
sum of the two values (no rounding). -/
theorem claim4_asset_merge (label : String) (s : DefiProtocolSummary)
    (e1 e2 : ProtocolBalanceEntry) (a : String)
    (h1 : e1.balanceType = BalanceType.asset) (h2 : e2.balanceType = BalanceType.asset)
    (ha1 : e1.baseBalance.tokenAddress = a) (ha2 : e2.baseBalance.tokenAddress = a)
    (hfresh : ∀ x ∈ s.assets, x.tokenAddress ≠ a) :
    (genericUpdate label s e1).assets = s.assets ++ [e1.baseBalance] ∧
    (genericUpdate label (genericUpdate label s e1) e2).assets.filter
        (fun x => x.tokenAddress = a)
      = [{ e1.baseBalance with balance :=
            ⟨e2.baseBalance.balance.amount + e1.baseBalance.balance.amount,
             e2.baseBalance.balance.usdValue + e1.baseBalance.balance.usdValue⟩ }] ∧
    (e1.baseBalance.balance.usdValue.den ≠ 0 → e2.baseBalance.balance.usdValue.den ≠ 0 →
      (e2.baseBalance.balance.usdValue + e1.baseBalance.balance.usdValue).toRat
        = e1.baseBalance.balance.usdValue.toRat + e2.baseBalance.balance.usdValue.toRat) := by
  have hstep : ∀ (s0 : DefiProtocolSummary) (e : ProtocolBalanceEntry),
      e.balanceType = BalanceType.asset →
        (genericUpdate label s0 e).assets = mergeAssets s0.assets e.baseBalance := by
    intro s0 e he
    unfold genericUpdate assetStep
    rw [he, if_pos rfl]
    show mergeAssets (collapseTokenInfo label s0 e).assets e.baseBalance
      = mergeAssets s0.assets e.baseBalance
    rw [collapseTokenInfo_assets]
  have hfresh1 : ∀ x ∈ s.assets, x.tokenAddress ≠ e1.baseBalance.tokenAddress := by
    intro x hx
    rw [ha1]
    exact hfresh x hx
  have hassets1 : (genericUpdate label s e1).assets = s.assets ++ [e1.baseBalance] := by
    rw [hstep s e1 h1]
    exact mergeAssets_fresh s.assets e1.baseBalance hfresh1
  refine ⟨hassets1, ?_, ?_⟩
  · have hassets2 : (genericUpdate label (genericUpdate label s e1) e2).assets
        = s.assets ++ { e1.baseBalance with balance :=
            ⟨e2.baseBalance.balance.amount + e1.baseBalance.balance.amount,
             e2.baseBalance.balance.usdValue + e1.baseBalance.balance.usdValue⟩ } :: [] := by
      rw [hstep _ e2 h2, hassets1]
      exact mergeAssets_append_match s.assets e1.baseBalance e2.baseBalance []
        (fun x hx => by rw [ha2]; exact hfresh x hx) (ha1.trans ha2.symm)
    rw [hassets2, List.filter_append]
    have hnil : s.assets.filter (fun x => x.tokenAddress = a) = [] := by
      rw [List.filter_eq_nil_iff]
      intro x hx
      simp only [decide_eq_true_eq]
      exact hfresh x hx
    rw [hnil, List.nil_append, List.filter_cons]
    rw [if_pos (by simpa using ha1)]
    rfl
  · intro hd1 hd2
    rw [Money.toRat_add _ _ hd2 hd1]
    exact add_comm _ _

/-- Claim C4, witness: the spec's example — entries (10, 100) and (5, 50) on
token "0xA" merge into one slot (15, 150). -/
theorem claim4_witness :
    (genericUpdate "multiple assets"
        (genericUpdate "multiple assets" (seedSummary exEntryA1) exEntryA1)
        exEntryA2).assets.filter (fun x => x.tokenAddress = "0xA")
      = [{ exEntryA1.baseBalance with balance :=
            ⟨exEntryA2.baseBalance.balance.amount + exEntryA1.baseBalance.balance.amount,
             exEntryA2.baseBalance.balance.usdValue
               + exEntryA1.baseBalance.balance.usdValue⟩ }] :=
  (claim4_asset_merge "multiple assets" (seedSummary exEntryA1) exEntryA1 exEntryA2
    "0xA" rfl rfl rfl rfl (by decide)).2.1

/-- Claim C5: on an existing generic summary whose stored token name differs
from the entry's, the update collapses the token display to the localized
"multiple assets" label with empty symbol, and this collapsed state absorbs
every further entry — including one whose token name matches an original
name. -/
theorem claim5_collapse (label : String) (s : DefiProtocolSummary) (ti : TokenInfo)
    (e : ProtocolBalanceEntry) (h : s.tokenInfo = some ti)
    (hne : ti.tokenName ≠ e.baseBalance.tokenName) :
    (genericUpdate label s e).tokenInfo = some ⟨label, ""⟩ ∧
    ∀ (s' : DefiProtocolSummary) (e' : ProtocolBalanceEntry),
      s'.tokenInfo = some ⟨label, ""⟩ →
        (genericUpdate label s' e').tokenInfo = some ⟨label, ""⟩ := by
  constructor
  · unfold genericUpdate
    rw [assetStep_tokenInfo]
    unfold collapseTokenInfo
    rw [h]
    rw [if_pos (by simpa using hne)]
  · intro s' e' h'
    unfold genericUpdate
    rw [assetStep_tokenInfo]
    unfold collapseTokenInfo
    rw [h']
    by_cases hc : label = e'.baseBalance.tokenName
    · rw [if_neg (by simpa using hc)]
      exact h'
    · rw [if_pos (by simpa using hc)]

/-- Claim C5, witness: seeding with "Dai", collapsing with "USDC", then a
third entry named "Dai" again — the summary stays on the "multiple assets"
label. -/
theorem claim5_witness :
    (genericUpdate "multiple assets" (seedSummary exEntryA1) exEntryB).tokenInfo
      = some ⟨"multiple assets", ""⟩ ∧
    (genericUpdate "multiple assets"
        (genericUpdate "multiple assets" (seedSummary exEntryA1) exEntryB)
        exEntryA1).tokenInfo = some ⟨"multiple assets", ""⟩ := by
  have h := claim5_collapse "multiple assets" (seedSummary exEntryA1) ⟨"Dai", "DAI"⟩
    exEntryB rfl (by decide)
  exact ⟨h.1, h.2 _ exEntryA1 h.1⟩

/-- Claim C9, counterexample: a generic entry whose backend protocol name
equals the MakerDAO DSR display name is accumulated under that display name,
while the post-loop DSR special summary is keyed under the identifier
"makerdao_dsr". Both survive, so the display name appears twice in the
output, and the special did not overwrite the generically accumulated summary
stored under the display name. -/
theorem claim9_counterexample :
    (overview exEnvDsr exDsrState).countP
        (fun s => s.protocol.name = MAKERDAO_DSR) = 2 ∧
    findSummary (summaryMap exEnvDsr exDsrState) MAKERDAO_DSR
      ≠ some (makerDAODSRSummary exEnvDsr) := by
  decide

/-- A defined, displayable special summary occupies its own key. -/
theorem findSummary_specialWrite_some_self (m : SummaryMap) (k : String)
    (s : DefiProtocolSummary) (hd : shouldDisplay s = true) :
    findSummary (specialWrite m k (some s)) k = some s := by
  show findSummary (if shouldDisplay s = true then setSummary m k s else m) k = some s
  rw [if_pos hd]
  exact findSummary_setSummary_self m k s

/-- With the overview status LOADED or REFRESHING, the post-loop block is the
three `specialWrite`s in order. -/
theorem applySpecial_eq_pos (env : OverviewEnv) (m : SummaryMap)
    (hst : env.status .defi_overview = Status.loaded ∨
      env.status .defi_overview = Status.refreshing) :
    applySpecialSummaries env m =
      specialWrite
        (specialWrite
          (specialWrite m DefiProtocol.makerdao_dsr.key
            (some (makerDAODSRSummary env)))
          DefiProtocol.makerdao_vaults.key (some (makerDAOVaultSummary env)))
        DefiProtocol.yearn_vaults_v2.key
        (protocolSummary env .yearn_vaults_v2 .defi_yearn_vaults_v2_balances
          YEARN_FINANCE_VAULTS_V2 true false) := by
  unfold applySpecialSummaries
  rw [if_pos hst]

/-- Claim C9, amended: the assembly merges both paths into one
insertion-ordered record with no duplicate keys; the four in-loop display
names are owned exclusively by their special summaries (generic accumulation
never writes them); the three post-loop specials are keyed by protocol
identifier and applied after generic accumulation, so when the overview
status allows them and they pass `shouldDisplay` they overwrite whatever the
generic path stored under those identifier keys. Two output rows may still
share a display name when a generic protocol is named like a special's
display name. -/
theorem claim9_amended (env : OverviewEnv) (A : AllDefiProtocols) :
    NodupKeys (summaryMap env A) ∧
    (∀ q, (q = AAVE ∨ q = COMPOUND ∨ q = YEARN_FINANCE_VAULTS ∨ q = LIQUITY) →
      ∀ s, findSummary (summaryMap env A) q = some s →
        inLoopSpecial env q = some s ∧ shouldDisplay s = true) ∧
    ((env.status .defi_overview = Status.loaded ∨
        env.status .defi_overview = Status.refreshing) →
      (shouldDisplay (makerDAODSRSummary env) = true →
        findSummary (summaryMap env A) DefiProtocol.makerdao_dsr.key
          = some (makerDAODSRSummary env)) ∧
      (shouldDisplay (makerDAOVaultSummary env) = true →
        findSummary (summaryMap env A) DefiProtocol.makerdao_vaults.key
          = some (makerDAOVaultSummary env)) ∧
      (∀ s, protocolSummary env .yearn_vaults_v2 .defi_yearn_vaults_v2_balances
            YEARN_FINANCE_VAULTS_V2 true false = some s → shouldDisplay s = true →
        findSummary (summaryMap env A) DefiProtocol.yearn_vaults_v2.key = some s)) := by
  refine ⟨nodupKeys_summaryMap env A, ?_, ?_⟩
  · intro q hq s hfind
    have hqp : q ∉ postLoopKeys := by
      rcases hq with h | h | h | h <;> (rw [h]; decide)
    unfold summaryMap at hfind
    rw [findSummary_applySpecial_ne _ _ _ hqp] at hfind
    exact inLoopInv_foldl env q hq _ [] (by simp) s (mem_of_findSummary_eq_some hfind)
  · intro hst
    have heq : summaryMap env A =
        specialWrite
          (specialWrite
            (specialWrite ((A.flatMap Prod.snd).foldl (entryStep env) [])
              DefiProtocol.makerdao_dsr.key (some (makerDAODSRSummary env)))
            DefiProtocol.makerdao_vaults.key (some (makerDAOVaultSummary env)))
          DefiProtocol.yearn_vaults_v2.key
          (protocolSummary env .yearn_vaults_v2 .defi_yearn_vaults_v2_balances
            YEARN_FINANCE_VAULTS_V2 true false) := by
      unfold summaryMap
      exact applySpecial_eq_pos env _ hst
    refine ⟨?_, ?_, ?_⟩
    · intro hd
      rw [heq,
        findSummary_specialWrite_ne _ _ _ _
          (by decide : DefiProtocol.makerdao_dsr.key ≠ DefiProtocol.yearn_vaults_v2.key),
        findSummary_specialWrite_ne _ _ _ _
          (by decide : DefiProtocol.makerdao_dsr.key ≠ DefiProtocol.makerdao_vaults.key)]
      exact findSummary_specialWrite_some_self _ _ _ hd
    · intro hd
      rw [heq,
        findSummary_specialWrite_ne _ _ _ _
          (by decide : DefiProtocol.makerdao_vaults.key ≠ DefiProtocol.yearn_vaults_v2.key)]
      exact findSummary_specialWrite_some_self _ _ _ hd
    · intro s ho hd
      rw [heq, ho]
      exact findSummary_specialWrite_some_self _ _ _ hd

/-- Claim C9, witness: with the overview section LOADED and a positive DSR
lending deposit, the post-loop DSR special occupies its identifier key. -/
theorem claim9_witness :
    findSummary (summaryMap exEnvDsr exDsrState) DefiProtocol.makerdao_dsr.key
      = some (makerDAODSRSummary exEnvDsr) :=
  ((claim9_amended exEnvDsr exDsrState).2.2 (Or.inl rfl)).1 (by decide)

/-- Claim C10: a Liability entry never contributes to `balanceUsd` or the
asset list (the balance accumulation is the identity on it), the generic
update still seeds or collapses the token info (it reduces to
`collapseTokenInfo`), and a generic protocol all of whose entries are
Liability entries ends with `balanceUsd` unset and both flags false, hence is
excluded from the overview output. -/
theorem claim10_liability (env : OverviewEnv) (A : AllDefiProtocols) (q : String)
    (hq : q ∉ specialDisplayNames) (hk : q ∉ postLoopKeys)
    (hliab : ∀ kv ∈ A, ∀ e ∈ (kv : String × List ProtocolBalanceEntry).2,
      e.protocol.name = q → e.balanceType = BalanceType.liability) :
    (∀ (s : DefiProtocolSummary) (e : ProtocolBalanceEntry),
      e.balanceType = BalanceType.liability → assetStep s e = s) ∧
    (∀ (label : String) (s : DefiProtocolSummary) (e : ProtocolBalanceEntry),
      e.balanceType = BalanceType.liability →
        genericUpdate label s e = collapseTokenInfo label s e) ∧
    ∀ s ∈ overview env A, s.protocol.name ≠ q := by
  refine ⟨fun s e h => assetStep_liability s e h, ?_, ?_⟩
  · intro label s e h
    unfold genericUpdate
    rw [assetStep_liability _ _ h]
  · intro s hs hname
    obtain ⟨hkeep, kv, hkv, hkv2⟩ := mem_overview hs
    have hq4 : ¬(q = AAVE ∨ q = COMPOUND ∨ q = YEARN_FINANCE_VAULTS ∨ q = LIQUITY) := by
      intro h
      rcases h with h | h | h | h <;> (rw [h] at hq; exact hq (by decide))
    rcases summaryMap_nameKey hkv with hn | ⟨hpk, hd⟩
    · have hk1 : kv.1 = q := by rw [← hn, hkv2, hname]
      unfold summaryMap at hkv
      rcases mem_applySpecial hkv with hfold | ⟨hpk, _⟩
      · have hes : ∀ e ∈ A.flatMap Prod.snd, e.protocol.name = q →
            e.balanceType = BalanceType.liability := by
          intro e he
          rcases List.mem_flatMap.1 he with ⟨kv', hkv', he'⟩
          exact hliab kv' hkv' e he'
        have hmemq : (q, kv.2) ∈ (A.flatMap Prod.snd).foldl (entryStep env) [] := by
          rw [← hk1]
          exact hfold
        have hinv := liabilityInv_foldl env q hq4 _ hes [] (by simp) kv.2 hmemq
        rw [hkv2] at hinv
        unfold overviewKeep at hkeep
        rw [hinv.1, hinv.2.1, hinv.2.2] at hkeep
        simp at hkeep
      · exact hk (hk1 ▸ hpk)
    · rw [hkv2, hname] at hd
      exact hq hd

/-- Claim C10, witness: on the concrete liability-only payload for protocol
"Bar", no summary of the overview carries that name. -/
theorem claim10_witness :
    (overview exEnvIdle exLiabilityState).all
      (fun s => s.protocol.name ≠ "Bar") = true :=
  List.all_eq_true.mpr fun s hs =>
    decide_eq_true
      ((claim10_liability exEnvIdle exLiabilityState "Bar" (by decide) (by decide)
        (by decide)).2.2 s hs)

/-! ## Claims about the fetch orchestrator -/

/-- Claim C2, counterexample: with the guard down and a payload failing schema
validation, `fetchDefiBalances` resolves normally (no thrown or rejected
error) and converts the failure into a user-visible notification — the
`AllDefiProtocols.parse` call sits inside the try/catch. -/
theorem claim2_counterexample :
    (fetchDefiBalances exFetchState false (.ok "raw") exParseFail).2 = .ok () ∧
    (fetchDefiBalances exFetchState false (.ok "raw") exParseFail).1.notifications
      = [defiBalancesErrorNotification "schema mismatch"] := by
  exact ⟨rfl, rfl⟩

/-- Claim C2, amended: a schema validation failure on the overview payload is
caught by the call's catch block: the call resolves without error, surfaces a
notification carrying the parse error message, and leaves `allProtocols`
unchanged. -/
theorem claim2_amended (st : DefiState) (refresh : Bool) (raw : RawPayload)
    (parse : RawPayload → Except String AllDefiProtocols) (msg : String)
    (hguard : fetchDisabled st refresh Section.defi_balances = false)
    (hparse : parse raw = .error msg) :
    (fetchDefiBalances st refresh (.ok raw) parse).2 = Except.ok () ∧
    (fetchDefiBalances st refresh (.ok raw) parse).1.notifications
      = st.notifications ++ [defiBalancesErrorNotification msg] ∧
    (fetchDefiBalances st refresh (.ok raw) parse).1.allProtocols
      = st.allProtocols := by
  unfold fetchDefiBalances
  simp [hguard, hparse, setStatus]

/-- Claim C2, witness: the amended behaviour at the concrete failing parse. -/
theorem claim2_witness :
    (fetchDefiBalances exFetchState false (.ok "raw") exParseFail).2 = Except.ok () ∧
    (fetchDefiBalances exFetchState false (.ok "raw") exParseFail).1.notifications
      = exFetchState.notifications
          ++ [defiBalancesErrorNotification "schema mismatch"] ∧
    (fetchDefiBalances exFetchState false (.ok "raw") exParseFail).1.allProtocols
      = exFetchState.allProtocols :=
  claim2_amended exFetchState false "raw" exParseFail "schema mismatch" rfl rfl

/-- Claim C7: with a fetch already in flight for the section and `refresh`
false, a second call to `fetchDefiBalances` or `fetchAllDefi` is an
idempotent no-op — the state (including the submission counter) is unchanged
and the call resolves without error, so no second task is submitted. -/
theorem claim7_guard (st : DefiState) (tr : Except String RawPayload)
    (parse : RawPayload → Except String AllDefiProtocols)
    (adapterFetches : DefiState → DefiState)
    (hb : statusInFlight (st.statuses Section.defi_balances) = true)
    (ho : statusInFlight (st.statuses Section.defi_overview) = true) :
    fetchDefiBalances st false tr parse = (st, .ok ()) ∧
    fetchAllDefi st false tr parse adapterFetches = (st, .ok ()) := by
  constructor
  · unfold fetchDefiBalances fetchDisabled
    simp [hb]
  · unfold fetchAllDefi fetchDisabled
    simp [ho]

/-- Claim C7, witness: the guard at a concrete in-flight state. -/
theorem claim7_witness :
    fetchDefiBalances exLoadingState false (.ok "x") exParseOk
      = (exLoadingState, .ok ()) ∧
    fetchAllDefi exLoadingState false (.ok "x") exParseOk id
      = (exLoadingState, .ok ()) :=
  claim7_guard exLoadingState (.ok "x") exParseOk id rfl rfl

/-- Claim C8: when the task await or the payload handling fails before
`allProtocols` is replaced, the call leaves `allProtocols` unchanged, appends
a displayed notification whose message carries the error text, still sets the
DEFI_BALANCES section status to LOADED, and resolves without error. -/
theorem claim8_failure (st : DefiState) (refresh : Bool)
    (tr : Except String RawPayload)
    (parse : RawPayload → Except String AllDefiProtocols) (msg : String)
    (hguard : fetchDisabled st refresh Section.defi_balances = false)
    (hfail : failureMsg tr parse = some msg) :
    (fetchDefiBalances st refresh tr parse).1.allProtocols = st.allProtocols ∧
    (fetchDefiBalances st refresh tr parse).1.notifications
      = st.notifications ++ [defiBalancesErrorNotification msg] ∧
    (defiBalancesErrorNotification msg).message
      = "Failed to query DeFi balances: " ++ msg ∧
    (defiBalancesErrorNotification msg).display = true ∧
    (fetchDefiBalances st refresh tr parse).1.statuses Section.defi_balances
      = Status.loaded ∧
    (fetchDefiBalances st refresh tr parse).2 = Except.ok () := by
  cases tr with
  | error e =>
    simp only [failureMsg] at hfail
    simp only [Option.some.injEq] at hfail
    subst hfail
    unfold fetchDefiBalances
    simp [hguard, setStatus, defiBalancesErrorNotification,
      defiBalancesErrorDescription]
  | ok raw =>
    simp only [failureMsg] at hfail
    cases hp : parse raw with
    | error e =>
      rw [hp] at hfail
      simp only [Option.some.injEq] at hfail
      subst hfail
      unfold fetchDefiBalances
      simp [hguard, hp, setStatus, defiBalancesErrorNotification,
        defiBalancesErrorDescription]
    | ok payload =>
      rw [hp] at hfail
      exact absurd hfail (by simp)

/-- Claim C8, witness: a failed task await at the concrete idle state. -/
theorem claim8_witness :
    (fetchDefiBalances exFetchState false (.error "boom") exParseOk).1.notifications
      = [defiBalancesErrorNotification "boom"] ∧
    (fetchDefiBalances exFetchState false (.error "boom") exParseOk).1.statuses
        Section.defi_balances = Status.loaded := by
  have h := claim8_failure exFetchState false (.error "boom") exParseOk "boom" rfl rfl
  refine ⟨?_, h.2.2.2.2.1⟩
  rw [h.2.1]
  rfl

end Rotki
